import Mathlib

/-!
# MSFStore: a map-backed histogram keyed by formatted floats

Shallow embedding of `msfstore.go`.

* A Go `map[string]float64` is an association list with pairwise distinct keys
  (`AList`), wrapped in `Option` because the map of a `Histogram` may be `nil`.
  The order of the entries is the order in which `range` visits the map, so a
  statement about every `Regs` is a statement about every iteration order.
* Weights are exact rationals: the histogram never inspects a weight other than by
  adding, negating and comparing it. Where the rounding of `float64` addition matters,
  `Histogram.TotalFloat` is `Total` with every partial sum rounded to the nearest
  `float64`.
* A `float64` location is the triple of its IEEE-754 bit fields (`F64`).
* The standard-library calls made by the source (`fmt.Sprintf` with the verb
  `%.<Resolution>e`, `strconv.ParseFloat`, `sort.Float64s`, `encoding/gob`) are the
  fields of `GoLib`; `goLib` further down is an executable instance.
-/

set_option exponentiation.threshold 5000

namespace MSFStore

/-! ## Data model -/

/-- A `float64`, given by the three fields of its bit pattern: sign bit, biased
exponent (11 bits) and fraction (52 bits). -/
structure F64 where
  sign : Bool
  expo : Fin 2048
  frac : Fin 4503599627370496
deriving DecidableEq

/-- The literal `0.0`, the value of a fresh element of `make([]float64, n)`. -/
def F64.zero : F64 := ⟨false, 0, 0⟩

/-- Go's `math.IsNaN`. -/
def F64.isNaN (x : F64) : Bool := x.expo.val == 2047 && x.frac.val != 0

/-- The order key of `sort.Float64s`, whose `Less(x, y)` is
`x < y || (isNaN(x) && !isNaN(y))`: NaN sorts first, the other values compare as
sign-magnitude integers, which is the IEEE order with `-0 = +0`. -/
def F64.sortKey (x : F64) : Int :=
  if x.isNaN then -9223372036854775808
  else if x.sign then -((x.expo.val * 4503599627370496 + x.frac.val : Nat) : Int)
  else ((x.expo.val * 4503599627370496 + x.frac.val : Nat) : Int)

/-- A non-nil `map[string]float64` together with an iteration order. -/
abbrev Regs := AList (fun _ : String => ℚ)

/-- The Go struct `Histogram`. `Registers = none` is the nil map. -/
structure Histogram where
  Resolution : Int
  Registers : Option Regs

/-- The Go struct `RawHist`. -/
structure RawHist where
  Location : List F64
  Weight : List ℚ

/-- The standard-library functions the source calls.

* `sprintfE r x` is `fmt.Sprintf("%."+strconv.Itoa(r)+"e", x)`;
* `parseFloat s` is `strconv.ParseFloat(s, 64)`: the returned value and whether
  the returned error is nil;
* `sortFloat64s` is `sort.Float64s`, an unstable sort: it rearranges its argument into
  ascending order of `F64.sortKey`, and nothing is fixed about the order of elements with
  equal keys (`-0` and `+0`);
* `gobEncode`/`gobDecode` are a `gob` encoder/decoder pair for `RawHist`, an exact
  and invertible encoding into some type of byte strings. -/
structure GoLib where
  sprintfE : Int → F64 → String
  parseFloat : String → F64 × Bool
  sortFloat64s : List F64 → List F64
  sort_perm : ∀ l, List.Perm (sortFloat64s l) l
  sort_sorted : ∀ l, List.Sorted (fun a b => F64.sortKey a ≤ F64.sortKey b) (sortFloat64s l)
  Bytes : Type
  gobEncode : RawHist → Bytes
  gobDecode : Bytes → RawHist × Bool
  gob_roundtrip : ∀ r, gobDecode (gobEncode r) = (r, true)

/-! ## Operations -/

/-- The entries visited by `range m.Registers`; a nil map has none. -/
def Histogram.regs (m : Histogram) : Regs :=
  match m.Registers with
  | none => ∅
  | some r => r

/-- Go's `v, ok := m[key]` followed by use of `v` alone: the zero value when the
key is absent. -/
def Regs.at (r : Regs) (key : String) : ℚ :=
  (r.lookup key).getD 0

/-- Source: `New`. -/
def New (Resolution : Int) : Histogram :=
  { Resolution := Resolution, Registers := some ∅ }

/-- Source: `Histogram.project`. -/
def Histogram.project (L : GoLib) (m : Histogram) (x : F64) : String :=
  L.sprintfE m.Resolution x

/-- Source: `Histogram.Insert`. A nil map is replaced by a fresh one, an absent
key is first set to `0.0`, then the key receives `current + count`. -/
def Histogram.Insert (L : GoLib) (m : Histogram) (val : F64) (count : ℚ) : Histogram :=
  let dest := m.project L val
  let regs : Regs := match m.Registers with
    | none => ∅
    | some r => r
  let current := regs.at dest
  let regs := if (regs.lookup dest).isSome then regs else regs.insert dest 0
  { m with Registers := some (regs.insert dest (current + count)) }

/-- Source: `Histogram.Read`. -/
def Histogram.Read (L : GoLib) (m : Histogram) (val : F64) : ℚ :=
  let dest := m.project L val
  m.regs.at dest

/-- One iteration of the loop of `Histogram.Min`. -/
def minStep (o : Histogram) (out : Histogram) (e : Sigma (fun _ : String => ℚ)) : Histogram :=
  match o.regs.lookup e.1 with
  | some val =>
      let useval := if val < e.2 then val else e.2
      { out with Registers := some (out.regs.insert e.1 useval) }
  | none => out

/-- Source: `Histogram.Min`. -/
def Histogram.Min (m o : Histogram) : Histogram :=
  m.regs.entries.foldl (minStep o) (New m.Resolution)

/-- One iteration of the loops of `Combine` (and the first loop of `Cancel`):
the key is decoded, the decode error is dropped, the pair is inserted. -/
def insertKey (L : GoLib) (out : Histogram) (e : Sigma (fun _ : String => ℚ)) : Histogram :=
  out.Insert L (L.parseFloat e.1).1 e.2

/-- One iteration of the second loop of `Cancel`: as `insertKey` with the
weight negated. -/
def cancelKey (L : GoLib) (out : Histogram) (e : Sigma (fun _ : String => ℚ)) : Histogram :=
  out.Insert L (L.parseFloat e.1).1 (-e.2)

/-- Source: `Histogram.Combine`. -/
def Histogram.Combine (L : GoLib) (m x : Histogram) : Histogram :=
  let out := New m.Resolution
  let out := x.regs.entries.foldl (insertKey L) out
  m.regs.entries.foldl (insertKey L) out

/-- Source: `Histogram.Total`. -/
def Histogram.Total (m : Histogram) : ℚ :=
  m.regs.entries.foldl (fun output e => output + e.2) 0

/-- Source: `Histogram.Cancel`. -/
def Histogram.Cancel (L : GoLib) (m x : Histogram) : Histogram :=
  let out := New m.Resolution
  let out := m.regs.entries.foldl (insertKey L) out
  x.regs.entries.foldl (cancelKey L) out

/-- The first loop of `ToRawHist`: the keys that decode without error, in
iteration order. -/
def decodedKeys (L : GoLib) (r : Regs) : List F64 :=
  r.entries.filterMap (fun e => if (L.parseFloat e.1).2 then some (L.parseFloat e.1).1 else none)

/-- Source: `Histogram.ToRawHist`. `locs` has one slot per register; the decoded
keys fill a prefix and the slots of skipped keys keep the value `0.0`; the whole
slice is sorted; each weight is read back through `project`. -/
def Histogram.ToRawHist (L : GoLib) (m : Histogram) : RawHist :=
  let n := m.regs.entries.length
  let filled := decodedKeys L m.regs
  let locs := L.sortFloat64s (filled ++ List.replicate (n - filled.length) F64.zero)
  let wts := locs.map (fun xx => m.regs.at (m.project L xx))
  { Location := locs, Weight := wts }

/-- The loop of `FromRawHist` from index `ii` on. `wts[ii]` beyond the end of
`wts` is an index-out-of-range panic, modelled by `none`. -/
def fromRawLoop (L : GoLib) (wts : List ℚ) : List F64 → Nat → Histogram → Option Histogram
  | [], _, m => some m
  | xx :: rest, ii, m =>
      match wts[ii]? with
      | none => none
      | some w => fromRawLoop L wts rest (ii + 1) (m.Insert L xx w)

/-- Source: `FromRawHist`; `none` is a run-time panic. -/
def FromRawHist (L : GoLib) (x : RawHist) (Resolution : Int) : Option Histogram :=
  fromRawLoop L x.Weight x.Location 0 (New Resolution)

/-- Source: `Histogram.Serialize`. -/
def Histogram.Serialize (L : GoLib) (m : Histogram) : L.Bytes :=
  L.gobEncode (m.ToRawHist L)

/-- Source: `Deserialize`. The result is `none` when `FromRawHist` panics; the
Boolean is `err == nil`. -/
def Deserialize (L : GoLib) (input : L.Bytes) (res : Int) : Option (Histogram × Bool) :=
  let h := L.gobDecode input
  match FromRawHist L h.1 res with
  | none => none
  | some out => some (out, h.2)

/-! ## An executable model of the library calls

`float64` values are read through their exact rational value; formatting and parsing
are the correctly rounded conversions (round half to even) that `strconv` implements.
All searches are structural recursions on a fuel that is at least the number of steps
needed, so every function below evaluates on concrete inputs. -/

/-- Go's `math.IsInf(x, 0)`. -/
def F64.isInf (x : F64) : Bool := x.expo.val == 2047 && x.frac.val == 0

/-- Neither NaN nor an infinity. -/
def F64.isFinite (x : F64) : Bool := x.expo.val != 2047

/-- Go's `math.NaN()`. -/
def F64.nan : F64 := ⟨false, 2047, 2251799813685249⟩

/-- Go's `math.Inf(sign)`. -/
def F64.inf (neg : Bool) : F64 := ⟨neg, 2047, 0⟩

/-- Integer significand of a finite value: `|x| = mant * 2 ^ bexp`. -/
def F64.mant (x : F64) : Nat :=
  if x.expo.val = 0 then x.frac.val else 4503599627370496 + x.frac.val

/-- Binary exponent of a finite value: `|x| = mant * 2 ^ bexp`. -/
def F64.bexp (x : F64) : Int :=
  if x.expo.val = 0 then -1074 else (x.expo.val : Int) - 1075

/-- Numerator of `|x|` as a fraction of naturals. -/
def F64.num (x : F64) : Nat := x.mant * 2 ^ x.bexp.toNat

/-- Denominator of `|x|` as a fraction of naturals. -/
def F64.den (x : F64) : Nat := 2 ^ (-x.bexp).toNat

/-- The exact absolute value of a finite `float64`. -/
def F64.abs (x : F64) : ℚ := (x.num : ℚ) / (x.den : ℚ)

/-- The decimal digit character of `d % 10`. -/
def digitChar (d : Nat) : Char := Char.ofNat (48 + d % 10)

/-- The last `k` decimal digits of `n`, most significant first, in front of `acc`. -/
def lastDigits : Nat → Nat → List Char → List Char
  | 0, _, acc => acc
  | k + 1, n, acc => lastDigits k (n / 10) (digitChar n :: acc)

/-- Number of decimal digits of `n`, with fuel. -/
def decLenAux : Nat → Nat → Nat
  | 0, _ => 1
  | fuel + 1, n => if n < 10 then 1 else 1 + decLenAux fuel (n / 10)

/-- Number of decimal digits of `n` (1 for `n = 0`). -/
def decLen (n : Nat) : Nat := decLenAux n n

/-- Number of binary digits of `n`, with fuel. -/
def binLenAux : Nat → Nat → Nat
  | 0, _ => 1
  | fuel + 1, n => if n < 2 then 1 else 1 + binLenAux fuel (n / 2)

/-- Number of binary digits of `n` (1 for `n = 0`). -/
def binLen (n : Nat) : Nat := binLenAux n n

/-- The integer nearest to `N / D`, ties to the even one. -/
def roundHalfEven (N D : Nat) : Nat :=
  if 2 * (N % D) < D then N / D
  else if 2 * (N % D) = D then (if (N / D) % 2 = 0 then N / D else N / D + 1)
  else N / D + 1

/-- The least `j` from the start value on with `b ≤ a * B ^ j`, with fuel. -/
def scaleUp (B a b : Nat) : Nat → Nat → Nat
  | 0, j => j
  | fuel + 1, j => if b ≤ a * B ^ j then j else scaleUp B a b fuel (j + 1)

/-- The decimal exponent of `a / b > 0`: the `k` with `10 ^ k ≤ a / b < 10 ^ (k + 1)`. -/
def decExp (a b : Nat) : Int :=
  if b ≤ a then (decLen (a / b) : Int) - 1 else -(scaleUp 10 a b b 0 : Int)

/-- The integer nearest to `(a / b) / 10 ^ (k - p)`, ties to even: the digits of `a / b`
down to the position `p` places after the one of weight `10 ^ k`. -/
def scaledRound (p a b : Nat) (k : Int) : Nat :=
  if 0 ≤ (p : Int) - k then roundHalfEven (a * 10 ^ ((p : Int) - k).toNat) b
  else roundHalfEven a (b * 10 ^ (k - (p : Int)).toNat)

/-- The `p + 1` significant digits of `a / b` (as one number) and the decimal exponent,
correctly rounded; a carry out of the top digit moves the exponent. -/
def sciDigits (p a b : Nat) : Nat × Int :=
  if a = 0 then (0, 0)
  else if scaledRound p a b (decExp a b) = 10 ^ (p + 1) then (10 ^ p, decExp a b + 1)
  else (scaledRound p a b (decExp a b), decExp a b)

/-- The exponent part of `%e`: a sign and at least two digits. -/
def expChars (k : Int) : List Char :=
  (if k < 0 then '-' else '+') :: lastDigits (max 2 (decLen k.natAbs)) k.natAbs []

/-- The `%e` layout of strconv (`fmtE`): sign, leading digit, point and `p` digits when
`p > 0`, exponent. -/
def sciChars (neg : Bool) (p n : Nat) (k : Int) : List Char :=
  (if neg then ['-'] else []) ++ lastDigits 1 (n / 10 ^ p) []
    ++ (if p = 0 then [] else '.' :: lastDigits p n []) ++ 'e' :: expChars k

/-- The text `fmt` prints for a `float64` under `%.<p>e`. -/
def formatE (p : Nat) (x : F64) : String :=
  if x.isNaN then "NaN"
  else if x.isInf then (if x.sign then "-Inf" else "+Inf")
  else String.mk (sciChars x.sign p (sciDigits p x.num x.den).1 (sciDigits p x.num x.den).2)

/-- An ASCII decimal digit. -/
def isDigit (c : Char) : Bool := '0' ≤ c && c ≤ '9'

/-- ASCII lower case. -/
def lowerASCII (c : Char) : Char :=
  if 'A' ≤ c ∧ c ≤ 'Z' then Char.ofNat (c.toNat + 32) else c

/-- One of the letters `a`..`f`, in either case. -/
def isHexLetter (c : Char) : Bool := 'a' ≤ lowerASCII c && lowerASCII c ≤ 'f'

/-- The value of a decimal or hexadecimal digit. -/
def digitVal (c : Char) : Nat :=
  if isDigit c then c.toNat - 48 else (lowerASCII c).toNat - 87

/-- The function `special` of strconv: a signed `inf`/`infinity` or an unsigned `nan`,
in any case, covering the whole string. -/
def parseSpecial (s : List Char) : Option F64 :=
  match s with
  | '+' :: rest =>
      if rest.map lowerASCII = "inf".toList ∨ rest.map lowerASCII = "infinity".toList
      then some (F64.inf false) else none
  | '-' :: rest =>
      if rest.map lowerASCII = "inf".toList ∨ rest.map lowerASCII = "infinity".toList
      then some (F64.inf true) else none
  | _ =>
      if s.map lowerASCII = "inf".toList ∨ s.map lowerASCII = "infinity".toList
      then some (F64.inf false)
      else if s.map lowerASCII = "nan".toList then some F64.nan else none

/-- The loop of `underscoreOK`; `saw` is 0 at the start, 1 after a digit, 2 after an
underscore, 3 after anything else. -/
def underscoreScan (hex : Bool) : List Char → Nat → Bool
  | [], saw => saw != 2
  | c :: cs, saw =>
      if isDigit c || (hex && isHexLetter c) then underscoreScan hex cs 1
      else if c = '_' then (if saw = 1 then underscoreScan hex cs 2 else false)
      else if saw = 2 then false
      else underscoreScan hex cs 3

/-- The function `underscoreOK` of strconv: underscores only between digits, or between
a base marker and a digit. -/
def underscoreOK (s : List Char) : Bool :=
  let s1 := match s with
    | '-' :: r => r
    | '+' :: r => r
    | _ => s
  match s1 with
  | '0' :: c :: r =>
      if lowerASCII c = 'b' ∨ lowerASCII c = 'o' ∨ lowerASCII c = 'x'
      then underscoreScan (lowerASCII c = 'x') r 1
      else underscoreScan false s1 0
  | _ => underscoreScan false s1 0

/-- Mantissa loop of `readFloat`: digits, underscores and at most one point. Returns the
digits read as a number, the number of digits after the point, whether a digit, a point
and an underscore were seen, and the unread rest. -/
def scanMant (hex : Bool) :
    List Char → Nat → Nat → Bool → Bool → Bool → Nat × Nat × Bool × Bool × List Char
  | [], m, f, sd, _, us => (m, f, sd, us, [])
  | c :: cs, m, f, sd, sp, us =>
      if c = '_' then scanMant hex cs m f sd sp true
      else if c = '.' then
        if sp then (m, f, sd, us, c :: cs) else scanMant hex cs m f sd true us
      else if isDigit c || (hex && isHexLetter c) then
        scanMant hex cs (m * (if hex then 16 else 10) + digitVal c) (if sp then f + 1 else f)
          true sp us
      else (m, f, sd, us, c :: cs)

/-- Exponent loop of `readFloat`, with its saturation (`if e < 10000`). -/
def scanExp : List Char → Nat → Bool → Nat × Bool × List Char
  | [], e, us => (e, us, [])
  | c :: cs, e, us =>
      if c = '_' then scanExp cs e true
      else if isDigit c then scanExp cs (if e < 10000 then e * 10 + digitVal c else e) us
      else (e, us, c :: cs)

/-- The function `readFloat` of strconv, required to consume the whole string as
`ParseFloat` does. `none` is a failed read. The result is the sign, whether the number
is hexadecimal, the mantissa digits as a number, and the exponent of the base (ten, or
two for a hexadecimal number) by which the mantissa is scaled. -/
def readFloat (s : List Char) : Option (Bool × Bool × Nat × Int) :=
  let neg : Bool := match s with
    | '-' :: _ => true
    | _ => false
  let s1 := match s with
    | '+' :: r => r
    | '-' :: r => r
    | _ => s
  let hex : Bool := match s1 with
    | '0' :: c :: _ :: _ => lowerASCII c = 'x'
    | _ => false
  let s2 := if hex then s1.drop 2 else s1
  let r := scanMant hex s2 0 0 false false false
  let m := r.1
  let f : Int := if hex then 4 * (r.2.1 : Int) else (r.2.1 : Int)
  if !r.2.2.1 then none else
  match r.2.2.2.2 with
  | [] => if hex then none
          else if r.2.2.2.1 && !underscoreOK s then none
          else some (neg, hex, m, -f)
  | c :: s3 =>
      if lowerASCII c = (if hex then 'p' else 'e') then
        let eneg : Bool := match s3 with
          | '-' :: _ => true
          | _ => false
        let s4 := match s3 with
          | '+' :: t => t
          | '-' :: t => t
          | _ => s3
        match s4 with
        | [] => none
        | d :: _ =>
            if !isDigit d then none else
            let x := scanExp s4 0 r.2.2.2.1
            if x.2.2 ≠ [] then none
            else if x.2.1 && !underscoreOK s then none
            else some (neg, hex, m, (if eneg then -(x.1 : Int) else (x.1 : Int)) - f)
      else none

/-- The `float64` nearest to the rational `N / D`, ties to the even significand. The
Boolean is `false` when the rounded value is beyond the largest finite `float64`, in
which case the value is the infinity. -/
def roundToF64 (neg : Bool) (N D : Nat) : F64 × Bool :=
  if N = 0 then (⟨neg, 0, 0⟩, true) else
  let e2 : Int := if D ≤ N then (binLen (N / D) : Int) - 1 else -(scaleUp 2 N D D 0 : Int)
  let q : Int := max (e2 - 52) (-1074)
  let m0 := if 0 ≤ q then roundHalfEven N (D * 2 ^ q.toNat)
            else roundHalfEven (N * 2 ^ (-q).toNat) D
  let m := if m0 = 9007199254740992 then 4503599627370496 else m0
  let q := if m0 = 9007199254740992 then q + 1 else q
  if 971 < q then (F64.inf neg, false)
  else if m < 4503599627370496 then (⟨neg, 0, Fin.ofNat m⟩, true)
  else (⟨neg, Fin.ofNat (q + 1075).toNat, Fin.ofNat (m - 4503599627370496)⟩, true)

/-- Go's `strconv.ParseFloat(s, 64)`: the value and whether the error is nil. A string
that is not a number gives `0` and an error; a number beyond the `float64` range gives
an infinity and an error; everything else is rounded to the nearest `float64`. -/
def ParseFloat (s : String) : F64 × Bool :=
  match parseSpecial s.toList with
  | some x => (x, true)
  | none =>
    match readFloat s.toList with
    | none => (F64.zero, false)
    | some (neg, hex, m, e) =>
        if 0 ≤ e then roundToF64 neg (m * (if hex then 2 else 10) ^ e.toNat) 1
        else roundToF64 neg m ((if hex then 2 else 10) ^ (-e).toNat)

/-- Digit `i` (counted from the most significant) of the `nd`-digit number `n`; `'0'`
outside the number. -/
def digitAt (n nd : Nat) (i : Int) : Char :=
  if 0 ≤ i ∧ i < nd then digitChar (n / 10 ^ (nd - 1 - i.toNat)) else '0'

/-- The digits `start`, `start + 1`, ... (`c` of them) of the `nd`-digit number `n`. -/
def digitRange (n nd : Nat) (start : Int) : Nat → List Char
  | 0 => []
  | c + 1 => digitAt n nd start :: digitRange n nd (start + 1) c

/-- The `%f` layout of strconv (`fmtF`): of the `nd` digits of `n`, `dp` stand before the
point; `prec` digits follow it. -/
def fixedChars (neg : Bool) (n nd : Nat) (dp : Int) (prec : Nat) : List Char :=
  (if neg then ['-'] else [])
    ++ (if 0 < dp then digitRange n nd 0 dp.toNat else ['0'])
    ++ (if prec = 0 then [] else '.' :: digitRange n nd dp prec)

/-- The `%g` layout of strconv: `%e` when the exponent is below -4 or at least `eprec`,
else `%f` with as many decimals as the digits need. -/
def genChars (neg : Bool) (n nd : Nat) (k : Int) (eprec : Int) : List Char :=
  if k < -4 ∨ eprec ≤ k then sciChars neg (nd - 1) n k
  else fixedChars neg n nd (k + 1) ((nd : Int) - (k + 1)).toNat

/-- Does the decimal `n * 10 ^ e` read back as a value of the magnitude of `x`? -/
def readsBack (x : F64) (n : Nat) (e : Int) : Bool :=
  let y := if 0 ≤ e then roundToF64 false (n * 10 ^ e.toNat) 1
           else roundToF64 false n (10 ^ (-e).toNat)
  y.2 && y.1.expo == x.expo && y.1.frac == x.frac

/-- The shortest digits that read back as `x` (strconv's `roundShortest`): the first
length `nd` at which cutting `x` off after `nd` digits, or the next `nd`-digit decimal
above, reads back as `x`; the nearer of the two when both do. Returns the digits, their
number and the decimal exponent; `k` is the decimal exponent of `x`. -/
def shortestAux (x : F64) (k : Int) : Nat → Nat → Nat × Nat × Int
  | 0, nd => ((sciDigits (nd - 1) x.num x.den).1, nd, (sciDigits (nd - 1) x.num x.den).2)
  | fuel + 1, nd =>
      let s : Int := (nd : Int) - 1 - k
      let lo := if 0 ≤ s then (x.num * 10 ^ s.toNat) / x.den
                else x.num / (x.den * 10 ^ (-s).toNat)
      let okdown := readsBack x lo (-s)
      let okup := readsBack x (lo + 1) (-s)
      if okdown && okup then
        ((sciDigits (nd - 1) x.num x.den).1, nd, (sciDigits (nd - 1) x.num x.den).2)
      else if okdown then (lo, nd, k)
      else if okup then
        (if lo + 1 = 10 ^ nd then (10 ^ (nd - 1), nd, k + 1) else (lo + 1, nd, k))
      else shortestAux x k fuel (nd + 1)

/-- The text `fmt` prints for a `float64` under `%v`: `%g` with the shortest digits. -/
def formatV (x : F64) : String :=
  if x.isNaN then "NaN"
  else if x.isInf then (if x.sign then "-Inf" else "+Inf")
  else if x.num = 0 then (if x.sign then "-0" else "0")
  else
    let d := shortestAux x (decExp x.num x.den) 16 1
    String.mk (genChars x.sign d.1 d.2.1 d.2.2 6)

/-- The text `fmt` prints for a `float64` under `%v` while a precision of zero is set:
`%.0g`, one significant digit. -/
def formatG0 (x : F64) : String :=
  if x.isNaN then "NaN"
  else if x.isInf then (if x.sign then "-Inf" else "+Inf")
  else if x.num = 0 then (if x.sign then "-0" else "0")
  else String.mk (genChars x.sign (sciDigits 0 x.num x.den).1 1 (sciDigits 0 x.num x.den).2 1)

/-- Go's `fmt.Sprintf("%."+strconv.Itoa(r)+"e", x)`.

* For `0 ≤ r ≤ 10000009` the format is `%.<r>e`.
* For a negative `r` the precision is empty (zero) and the verb is the minus sign of `r`,
  which is no verb for a float: `fmt` prints its bad-verb text around the operand, then
  the remaining characters of the format.
* For larger `r` the number scanner of `fmt` gives up on the precision (it stops once the
  digits read so far exceed `1e6`) and skips the rest of the format, verb included: `fmt`
  prints its no-verb text and lists the unused operand. -/
def sprintfE (r : Int) (x : F64) : String :=
  if r < 0 then
    "%!-(float64=" ++ formatG0 x ++ ")"
      ++ String.mk (lastDigits (decLen r.natAbs) r.natAbs []) ++ "e"
  else if r ≤ 10000009 then formatE r.toNat x
  else "%!(NOVERB)%!(EXTRA float64=" ++ formatV x ++ ")"

/-- An execution of `sort.Float64s`: insertion sort by `F64.sortKey` (the algorithm the
library itself uses on slices of at most 12 elements). -/
def sortFloat64s (l : List F64) : List F64 :=
  l.insertionSort (fun a b => a.sortKey ≤ b.sortKey)

/-- The executable library: the models above, and `gob` taken as the identity encoding
of a `RawHist`. -/
def goLib : GoLib where
  sprintfE := sprintfE
  parseFloat := ParseFloat
  sortFloat64s := sortFloat64s
  sort_perm := fun l => List.perm_insertionSort _ l
  sort_sorted := fun l => by
    haveI : IsTotal F64 (fun a b => a.sortKey ≤ b.sortKey) := ⟨fun a b => le_total _ _⟩
    haveI : IsTrans F64 (fun a b => a.sortKey ≤ b.sortKey) := ⟨fun _ _ _ h1 h2 => le_trans h1 h2⟩
    exact List.sorted_insertionSort _ l
  Bytes := RawHist
  gobEncode := fun r => r
  gobDecode := fun b => (b, true)
  gob_roundtrip := fun _ => rfl

/-! ## Auxiliary definitions for the proofs -/

/-- The sum of the weights of an entry list. -/
def wsum (l : List (Sigma (fun _ : String => ℚ))) : ℚ := (l.map (fun e => e.2)).sum

/-- Repeated `Insert` of a list of (location, weight) pairs. -/
def insertAll (L : GoLib) (m : Histogram) (l : List (F64 × ℚ)) : Histogram :=
  l.foldl (fun out p => out.Insert L p.1 p.2) m

/-- The keys of `A` decode without error and project back to themselves at the
resolution of `A`. -/
def Canonical (L : GoLib) (A : Histogram) : Prop :=
  ∀ key ∈ A.regs.keys, (L.parseFloat key).2 = true ∧ A.project L (L.parseFloat key).1 = key

/-- A histogram of resolution 2 whose only key was written with one fractional digit. -/
def coarseKey : Histogram := ⟨2, some (AList.insert "1.2e+02" 5 ∅)⟩

/-- A histogram of resolution 2 whose only key is not a number. -/
def badKey : Histogram := ⟨2, some (AList.insert "abc" 5 ∅)⟩

/-- Go's `math.MaxFloat64`, `1.7976931348623157e308`. -/
def maxFloat64 : F64 := ⟨false, 2046, 4503599627370495⟩

/-- The subnormal `21 * 2^-1074`, about `1.04e-322`. -/
def tiny21 : F64 := ⟨false, 0, 21⟩

/-- The subnormal `20 * 2^-1074`, about `9.88e-323`. -/
def tiny20 : F64 := ⟨false, 0, 20⟩

/-- The `float64` next above `1e23`, `1.0000000000000001e23`. -/
def above1e23 : F64 := ⟨false, 1099, 1456864850168567⟩

/-- The `float64` nearest to `1e23`, which lies below it: `9.999999999999999e22`. -/
def below1e23 : F64 := ⟨false, 1099, 1456864850168566⟩

/-- The number a string of decimal digits denotes. -/
def decVal (cs : List Char) : Nat := cs.foldl (fun acc c => acc * 10 + (c.toNat - 48)) 0

/-- The `float64` a Go literal denotes. -/
def f64 (s : String) : F64 := (ParseFloat s).1

/-- The histogram `x` of `msfstore_test.go` after its two inserts, as the test's
expectations describe it. -/
def xTest : Histogram :=
  ⟨2, some (AList.insert "2.35e+04" 11 (AList.insert "1.23e+02" (2332 / 100) ∅))⟩

/-- The histogram `q` of the `Min` test after its two inserts. -/
def qTest : Histogram :=
  ⟨2, some (AList.insert "2.35e+04" 1000 (AList.insert "1.23e+02" 6 ∅))⟩

/-- Every key of `h` is the projection, at the resolution of `h`, of some value. -/
def KeysProjected (L : GoLib) (h : Histogram) : Prop :=
  ∀ key, key ∈ h.regs → ∃ v, h.project L v = key

/-- A register map with every weight negated. -/
def negRegs (r : Regs) : Regs :=
  ⟨r.entries.map (fun e => ⟨e.1, -e.2⟩), by
    have h := r.nodupKeys
    simpa [List.NodupKeys, List.keys, List.map_map, Function.comp_def] using h⟩

/-- The histogram `x` with every weight negated (a nil map stays nil). -/
def Histogram.negated (x : Histogram) : Histogram :=
  { x with Registers := x.Registers.map negRegs }

/-- The description of `Cancel` in the specification: `Combine` with the weights of the
argument negated. -/
def Histogram.CancelSpec (L : GoLib) (m x : Histogram) : Histogram :=
  m.Combine L x.negated

/-- What the registers of `A` add to the key `key` when they are decoded and inserted at
resolution `r`: the sum of the weights of the keys of `A` whose decoded value projects
to `key`. -/
def contribution (L : GoLib) (r : Int) (A : Histogram) (key : String) : ℚ :=
  ((A.regs.entries.filter (fun e => L.sprintfE r (L.parseFloat e.1).1 = key)).map
    (fun e => e.2)).sum

/-- The variant of `ToRawHist` that the specification allows: the locations are decoded
and sorted as in `ToRawHist`, and each location is paired with the weight stored under the
key it was decoded from (the first register in iteration order whose key decodes to it
without error; `0.0` when there is none), not with the weight found by projecting the
location again. -/
def Histogram.ToRawHistDirect (L : GoLib) (m : Histogram) : RawHist :=
  let n := m.regs.entries.length
  let filled := decodedKeys L m.regs
  let locs := L.sortFloat64s (filled ++ List.replicate (n - filled.length) F64.zero)
  let wts := locs.map (fun xx =>
    match m.regs.entries.find? (fun e => (L.parseFloat e.1).2 && decide ((L.parseFloat e.1).1 = xx))
    with
    | some e => e.2
    | none => 0)
  { Location := locs, Weight := wts }

/-- A histogram of resolution 2 with a key that is not a number next to the key of zero. -/
def badAndZero : Histogram :=
  ⟨2, some (AList.insert "abc" 5 (AList.insert "0.00e+00" 7 ∅))⟩

/-- A zero of either sign. -/
def F64.isZero (x : F64) : Bool := x.expo.val == 0 && x.frac.val == 0

/-- The negative zero, `math.Copysign(0, -1)`. -/
def F64.negZero : F64 := ⟨true, 0, 0⟩

/-- Go's `x < y` on `float64` values: false when either is NaN, else the comparison of the
values, which is the comparison of the bit patterns read as sign-magnitude integers. -/
def F64.lt (x y : F64) : Bool := !x.isNaN && !y.isNaN && decide (x.sortKey < y.sortKey)

/-- The method `Less` of `sort.Float64Slice`: `x < y || (isNaN(x) && !isNaN(y))`. -/
def F64.less (x y : F64) : Bool := x.lt y || (x.isNaN && !y.isNaN)

/-- The histogram after `New(2)`, `Insert(0.0, 1)` and `Insert(-0.0, 2)`. -/
def zeroPair : Histogram := ((New 2).Insert goLib F64.zero 1).Insert goLib F64.negZero 2

/-- A histogram of resolution 2 with two keys that decode to the same value, 120. -/
def coarsePair : Histogram :=
  ⟨2, some (AList.insert "1.2e+02" 5 (AList.insert "1.20e+02" 7 ∅))⟩

/-- Spec of C8: `n * 10 ^ (k - r)` is the positive `v` correctly rounded to `r + 1`
significant decimal digits. With `K` the decimal exponent of `v`, the digits of `v` down to
the unit `10 ^ (K - r)` are rounded to the nearest multiple `n0` of that unit, the even one
at a tie, and `n`, `k` are that number written with `r + 1` digits (a `n0` of
`10 ^ (r + 1)` carries into the next decade). -/
def RoundsTo (r : Nat) (v : ℚ) (n : Nat) (k : Int) : Prop :=
  10 ^ r ≤ n ∧ n < 10 ^ (r + 1)
    ∧ ∃ (K : Int) (n0 : Nat), (10 : ℚ) ^ K ≤ v ∧ v < (10 : ℚ) ^ (K + 1)
        ∧ |v - (n0 : ℚ) * (10 : ℚ) ^ (K - r)| ≤ (10 : ℚ) ^ (K - r) / 2
        ∧ (|v - (n0 : ℚ) * (10 : ℚ) ^ (K - r)| = (10 : ℚ) ^ (K - r) / 2 → Even n0)
        ∧ (n : ℚ) * (10 : ℚ) ^ (k - r) = (n0 : ℚ) * (10 : ℚ) ^ (K - r)

/-- Spec of C8, the layout: `s` is an optional minus sign, one leading digit, a point and
exactly `r` digits when `r > 0`, the letter `e`, the sign of `k` and the digits of `|k|`,
at least two and beyond two only as many as `|k|` needs; the `r + 1` digits spell `n`. -/
def SciLayout (neg : Bool) (r n : Nat) (k : Int) (s : String) : Prop :=
  ∃ (lead : Char) (frac edigs : List Char),
    s = String.mk ((if neg then ['-'] else []) ++ lead
          :: ((if r = 0 then [] else '.' :: frac)
            ++ 'e' :: (if k < 0 then '-' else '+') :: edigs))
      ∧ isDigit lead = true ∧ frac.length = r ∧ (∀ c ∈ frac, isDigit c = true)
      ∧ 2 ≤ edigs.length ∧ (2 < edigs.length → 10 ^ (edigs.length - 1) ≤ k.natAbs)
      ∧ (∀ c ∈ edigs, isDigit c = true)
      ∧ decVal (lead :: frac) = n ∧ decVal edigs = k.natAbs

/-- The exact value of a finite `float64`. -/
def F64.toRat (x : F64) : ℚ := if x.sign then -x.abs else x.abs

/-- The `float64` nearest to the rational `q`, ties to even: what `float64` arithmetic
returns for an operation whose exact result is `q`. -/
def F64.ofRat (q : ℚ) : F64 := (roundToF64 (decide (q < 0)) q.num.natAbs q.den).1

/-- Source: `Histogram.Total` in `float64` arithmetic, for weights that are finite
`float64` values and sums that stay in range: `output := 0.0`, and each `output += val`
rounds the exact sum to the nearest `float64`. -/
def Histogram.TotalFloat (m : Histogram) : ℚ :=
  m.regs.entries.foldl (fun output e => (F64.ofRat (output + e.2)).toRat) 0

/-- The histogram after `New(2)`, `Insert(3, -1e16)`, `Insert(2, 1e16)`, `Insert(1, 1)`. -/
def cancelTriple : Histogram :=
  ⟨2, some (AList.insert "1.00e+00" 1 (AList.insert "2.00e+00" 10000000000000000
    (AList.insert "3.00e+00" (-10000000000000000) ∅)))⟩

/-! ## Registers, `Insert` and `Total` -/

theorem foldl_add_snd (l : List (Sigma (fun _ : String => ℚ))) (a : ℚ) :
    l.foldl (fun output e => output + e.2) a = a + (l.map (fun e => e.2)).sum := by
  induction l generalizing a with
  | nil => simp
  | cons e l ih => simp [ih, add_assoc]

theorem Total_eq_wsum (m : Histogram) : m.Total = wsum m.regs.entries := by
  simp [Histogram.Total, wsum, foldl_add_snd]

theorem dlookup_cons_same (k : String) (b : ℚ) (l : List (Sigma (fun _ : String => ℚ))) :
    List.dlookup k (⟨k, b⟩ :: l) = some b := List.dlookup_cons_eq l k b

theorem wsum_kerase (k : String) (l : List (Sigma (fun _ : String => ℚ))) :
    wsum (List.kerase k l) + (List.dlookup k l).getD 0 = wsum l := by
  induction l with
  | nil => simp [wsum]
  | cons e l ih =>
    obtain ⟨a, b⟩ := e
    by_cases h : k = a
    · subst h
      rw [List.kerase_cons_eq (s := ⟨k, b⟩) (l := l) rfl, dlookup_cons_same]
      simp [wsum, add_comm]
    · rw [List.kerase_cons_ne h, List.dlookup_cons_ne l ⟨a, b⟩ h]
      simp only [wsum, List.map_cons, List.sum_cons] at ih ⊢
      rw [add_assoc, ih]

theorem wsum_insert (r : Regs) (k : String) (w : ℚ) :
    wsum (r.insert k w).entries = wsum r.entries - r.at k + w := by
  have h := wsum_kerase k r.entries
  rw [AList.insert_entries]
  simp only [wsum, List.map_cons, List.sum_cons] at h ⊢
  simp only [Regs.at, AList.lookup]
  linarith

theorem New_regs (Resolution : Int) : (New Resolution).regs = ∅ := rfl

theorem Insert_Resolution (L : GoLib) (m : Histogram) (v : F64) (w : ℚ) :
    (m.Insert L v w).Resolution = m.Resolution := rfl

theorem Insert_project (L : GoLib) (m : Histogram) (v : F64) (w : ℚ) (x : F64) :
    (m.Insert L v w).project L x = m.project L x := rfl

/-- The registers after `Insert`: one assignment to the destination key. -/
theorem Insert_regs (L : GoLib) (m : Histogram) (v : F64) (w : ℚ) :
    (m.Insert L v w).regs = m.regs.insert (m.project L v) (m.regs.at (m.project L v) + w) := by
  obtain ⟨res, reg⟩ := m
  cases reg with
  | none =>
    simp only [Histogram.Insert, Histogram.regs]
    split_ifs with h
    · rfl
    · rw [AList.insert_insert]
  | some r =>
    simp only [Histogram.Insert, Histogram.regs]
    split_ifs with h
    · rfl
    · rw [AList.insert_insert]

theorem Insert_lookup_same (L : GoLib) (m : Histogram) (v : F64) (w : ℚ) :
    (m.Insert L v w).regs.lookup (m.project L v) = some (m.regs.at (m.project L v) + w) := by
  rw [Insert_regs, AList.lookup_insert]

theorem Insert_lookup_ne (L : GoLib) (m : Histogram) (v : F64) (w : ℚ) (key : String)
    (h : key ≠ m.project L v) :
    (m.Insert L v w).regs.lookup key = m.regs.lookup key := by
  rw [Insert_regs, AList.lookup_insert_ne h]

theorem Insert_at (L : GoLib) (m : Histogram) (v : F64) (w : ℚ) (key : String) :
    (m.Insert L v w).regs.at key
      = m.regs.at key + (if m.project L v = key then w else 0) := by
  by_cases h : m.project L v = key
  · subst h
    simp [Regs.at, Insert_lookup_same]
  · have h2 : key ≠ m.project L v := fun e => h e.symm
    simp [Regs.at, Insert_lookup_ne L m v w key h2, h]

theorem Insert_mem (L : GoLib) (m : Histogram) (v : F64) (w : ℚ) (key : String) :
    key ∈ (m.Insert L v w).regs ↔ key = m.project L v ∨ key ∈ m.regs := by
  rw [Insert_regs, AList.mem_insert]

theorem Insert_Total (L : GoLib) (m : Histogram) (v : F64) (w : ℚ) :
    (m.Insert L v w).Total = m.Total + w := by
  rw [Total_eq_wsum, Total_eq_wsum, Insert_regs, wsum_insert]
  ring

theorem insertAll_Resolution (L : GoLib) (m : Histogram) (l : List (F64 × ℚ)) :
    (insertAll L m l).Resolution = m.Resolution := by
  induction l generalizing m with
  | nil => rfl
  | cons p l ih => simp only [insertAll, List.foldl_cons] at ih ⊢; rw [ih]; rfl

/-- The map of a histogram that went through `Insert` is never nil. -/
theorem insertAll_Registers (L : GoLib) (m : Histogram) (l : List (F64 × ℚ))
    (h : m.Registers.isSome = true) : (insertAll L m l).Registers.isSome = true := by
  induction l generalizing m with
  | nil => exact h
  | cons p l ih =>
    simp only [insertAll, List.foldl_cons] at ih ⊢
    exact ih _ rfl

theorem insertAll_Total (L : GoLib) (m : Histogram) (l : List (F64 × ℚ)) :
    (insertAll L m l).Total = m.Total + (l.map (fun p => p.2)).sum := by
  induction l generalizing m with
  | nil => simp [insertAll]
  | cons p l ih =>
    simp only [insertAll, List.foldl_cons, List.map_cons, List.sum_cons] at ih ⊢
    rw [ih, Insert_Total]; ring

theorem insertAll_at (L : GoLib) (m : Histogram) (l : List (F64 × ℚ)) (key : String) :
    (insertAll L m l).regs.at key
      = m.regs.at key + ((l.filter (fun p => m.project L p.1 = key)).map (fun p => p.2)).sum := by
  induction l generalizing m with
  | nil => simp [insertAll]
  | cons p l ih =>
    simp only [insertAll, List.foldl_cons] at ih ⊢
    rw [ih, Insert_at]
    simp only [Insert_project]
    by_cases h : m.project L p.1 = key
    · simp [List.filter_cons, h, add_assoc]
    · simp [List.filter_cons, h]

theorem insertAll_mem (L : GoLib) (m : Histogram) (l : List (F64 × ℚ)) (key : String) :
    key ∈ (insertAll L m l).regs ↔ key ∈ m.regs ∨ ∃ p ∈ l, m.project L p.1 = key := by
  induction l generalizing m with
  | nil => simp [insertAll]
  | cons p l ih =>
    simp only [insertAll, List.foldl_cons] at ih ⊢
    rw [ih, Insert_mem]
    simp only [Insert_project, List.mem_cons, exists_eq_or_imp]
    constructor
    · rintro ((h | h) | h)
      · exact Or.inr (Or.inl h.symm)
      · exact Or.inl h
      · exact Or.inr (Or.inr h)
    · rintro (h | h | h)
      · exact Or.inl (Or.inr h)
      · exact Or.inl (Or.inl h.symm)
      · exact Or.inr h

theorem foldl_insertKey (L : GoLib) (out : Histogram) (l : List (Sigma (fun _ : String => ℚ))) :
    l.foldl (insertKey L) out = insertAll L out (l.map (fun e => ((L.parseFloat e.1).1, e.2))) := by
  induction l generalizing out with
  | nil => rfl
  | cons e l ih => simp only [List.foldl_cons, List.map_cons, insertAll] at ih ⊢; rw [ih]; rfl

theorem foldl_cancelKey (L : GoLib) (out : Histogram) (l : List (Sigma (fun _ : String => ℚ))) :
    l.foldl (cancelKey L) out = insertAll L out (l.map (fun e => ((L.parseFloat e.1).1, -e.2))) := by
  induction l generalizing out with
  | nil => rfl
  | cons e l ih => simp only [List.foldl_cons, List.map_cons, insertAll] at ih ⊢; rw [ih]; rfl

/-! ## `Min` -/

theorem wsum_perm {l₁ l₂ : List (Sigma (fun _ : String => ℚ))} (p : l₁.Perm l₂) :
    wsum l₁ = wsum l₂ := (p.map _).sum_eq

/-- Two histograms with the same key-to-weight map have the same total. -/
theorem Total_congr (A B : Histogram) (h : ∀ key, A.regs.lookup key = B.regs.lookup key) :
    A.Total = B.Total := by
  rw [Total_eq_wsum, Total_eq_wsum]
  apply wsum_perm
  apply List.lookup_ext A.regs.nodupKeys B.regs.nodupKeys
  intro x y
  have := h x
  simp only [AList.lookup] at this
  rw [this]

theorem minStep_Resolution (o out : Histogram) (e : Sigma (fun _ : String => ℚ)) :
    (minStep o out e).Resolution = out.Resolution := by
  unfold minStep
  split <;> rfl

theorem foldl_minStep_Resolution (o out : Histogram) (l : List (Sigma (fun _ : String => ℚ))) :
    (l.foldl (minStep o) out).Resolution = out.Resolution := by
  induction l generalizing out with
  | nil => rfl
  | cons e l ih => rw [List.foldl_cons, ih, minStep_Resolution]

theorem minStep_lookup_ne (o out : Histogram) (e : Sigma (fun _ : String => ℚ)) (key : String)
    (h : key ≠ e.1) : (minStep o out e).regs.lookup key = out.regs.lookup key := by
  unfold minStep
  split
  · simp only [Histogram.regs]
    rw [AList.lookup_insert_ne h]
  · rfl

theorem minStep_lookup_same (o out : Histogram) (e : Sigma (fun _ : String => ℚ)) :
    (minStep o out e).regs.lookup e.1
      = match o.regs.lookup e.1 with
        | some b => some (min e.2 b)
        | none => out.regs.lookup e.1 := by
  cases hval : o.regs.lookup e.1 with
  | none => simp only [minStep, hval]
  | some val =>
    simp only [minStep, hval]
    show AList.lookup e.1 (AList.insert e.1 _ out.regs) = _
    rw [AList.lookup_insert]
    congr 1
    by_cases hlt : val < e.2
    · rw [if_pos hlt, min_eq_right (le_of_lt hlt)]
    · rw [if_neg hlt, min_eq_left (not_lt.mp hlt)]

/-- The registers produced by the loop of `Min` over a duplicate-free entry list. -/
theorem foldl_minStep_lookup (o : Histogram) (l : List (Sigma (fun _ : String => ℚ)))
    (nd : l.NodupKeys) (out : Histogram) (key : String) :
    (l.foldl (minStep o) out).regs.lookup key
      = match l.dlookup key, o.regs.lookup key with
        | some a, some b => some (min a b)
        | _, _ => out.regs.lookup key := by
  induction l generalizing out with
  | nil => simp
  | cons e l ih =>
    obtain ⟨k, a⟩ := e
    rw [List.nodupKeys_cons] at nd
    rw [List.foldl_cons, ih nd.2]
    by_cases h : key = k
    · subst h
      have hnone : List.dlookup key l = none := List.dlookup_eq_none.mpr nd.1
      rw [hnone, List.dlookup_cons_eq]
      have := minStep_lookup_same o out ⟨key, a⟩
      simp only at this ⊢
      rw [this]
      cases o.regs.lookup key <;> rfl
    · rw [List.dlookup_cons_ne l ⟨k, a⟩ h, minStep_lookup_ne o out ⟨k, a⟩ key h]

theorem Min_lookup (m o : Histogram) (key : String) :
    (m.Min o).regs.lookup key
      = match m.regs.lookup key, o.regs.lookup key with
        | some a, some b => some (min a b)
        | _, _ => none := by
  unfold Histogram.Min
  rw [foldl_minStep_lookup o _ m.regs.nodupKeys]
  rfl

/-! ## `ToRawHist` and `FromRawHist` -/

/-- A register map is determined by its key set and its readings. -/
theorem lookup_eq_of_mem_at (r s : Regs) (key : String)
    (hmem : key ∈ r ↔ key ∈ s) (hat : r.at key = s.at key) :
    r.lookup key = s.lookup key := by
  simp only [← AList.lookup_isSome] at hmem
  simp only [Regs.at] at hat
  cases hr : r.lookup key <;> cases hs : s.lookup key <;> simp_all

/-- When every weight is the image of its location, the loop of `FromRawHist` never
reads past the end of the weights and inserts each pair. -/
theorem fromRawLoop_map (L : GoLib) (f : F64 → ℚ) (locs pre : List F64) (m : Histogram) :
    fromRawLoop L ((pre ++ locs).map f) locs pre.length m
      = some (insertAll L m (locs.map (fun x => (x, f x)))) := by
  induction locs generalizing pre m with
  | nil => rfl
  | cons x rest ih =>
    have hget : ((pre ++ x :: rest).map f)[pre.length]? = some (f x) := by
      rw [List.getElem?_map, List.getElem?_append_right (le_refl _)]
      simp
    simp only [fromRawLoop, hget]
    have := ih (pre ++ [x]) (m.Insert L x (f x))
    simp only [List.append_assoc, List.singleton_append, List.length_append,
      List.length_singleton] at this
    rw [this]
    rfl

theorem decodedKeys_of_all_ok (L : GoLib) (l : List (Sigma (fun _ : String => ℚ)))
    (h : ∀ e ∈ l, (L.parseFloat e.1).2 = true) :
    l.filterMap (fun e => if (L.parseFloat e.1).2 then some (L.parseFloat e.1).1 else none)
      = l.map (fun e => (L.parseFloat e.1).1) := by
  induction l with
  | nil => rfl
  | cons e l ih =>
    have he := h e (List.mem_cons_self _ _)
    rw [List.filterMap_cons, List.map_cons, ih (fun e' h' => h e' (List.mem_cons_of_mem _ h'))]
    simp [he]

/-- The locations of `ToRawHist` under `Canonical`: a rearrangement of the decoded keys. -/
theorem ToRawHist_Location_perm (L : GoLib) (A : Histogram) (hc : Canonical L A) :
    List.Perm (A.ToRawHist L).Location (A.regs.entries.map (fun e => (L.parseFloat e.1).1)) := by
  have hall : ∀ e ∈ A.regs.entries, (L.parseFloat e.1).2 = true := by
    intro e he
    exact (hc e.1 (List.mem_map_of_mem _ he)).1
  have hdk : decodedKeys L A.regs = A.regs.entries.map (fun e => (L.parseFloat e.1).1) :=
    decodedKeys_of_all_ok L _ hall
  simp only [Histogram.ToRawHist, hdk, List.length_map, Nat.sub_self, List.replicate_zero,
    List.append_nil]
  exact L.sort_perm _

theorem ToRawHist_Weight (L : GoLib) (A : Histogram) :
    (A.ToRawHist L).Weight
      = (A.ToRawHist L).Location.map (fun xx => A.regs.at (A.project L xx)) := rfl

/-- Sum of the weights that a duplicate-free list of canonical keys sends to one
destination. -/
theorem sum_filter_canonical (P : F64 → String) (D : String → F64) (g : String → ℚ)
    (l : List (Sigma (fun _ : String => ℚ))) (nd : l.NodupKeys)
    (hc : ∀ e ∈ l, P (D e.1) = e.1) (key : String) :
    (((l.map (fun e => (D e.1, g (P (D e.1))))).filter (fun p => P p.1 = key)).map
        (fun p => p.2)).sum = if key ∈ l.keys then g key else 0 := by
  induction l with
  | nil => simp
  | cons e l ih =>
    rw [List.nodupKeys_cons] at nd
    have he := hc e (List.mem_cons_self _ _)
    have ih' := ih nd.2 (fun e' h' => hc e' (List.mem_cons_of_mem _ h'))
    simp only [List.map_cons, List.filter_cons, he, List.keys_cons, List.mem_cons]
    by_cases hk : e.1 = key
    · subst hk
      have : e.1 ∉ l.keys := nd.1
      simp [ih', this]
    · have hk' : ¬ key = e.1 := fun h => hk h.symm
      simp [hk, hk', ih']

/-- On the output of `ToRawHist`, `FromRawHist` never panics: it inserts each location
with the weight `ToRawHist` read for it. -/
theorem FromRawHist_ToRawHist_eq (L : GoLib) (A : Histogram) (r : Int) :
    FromRawHist L (A.ToRawHist L) r
      = some (insertAll L (New r)
          ((A.ToRawHist L).Location.map (fun x => (x, A.regs.at (A.project L x))))) := by
  have := fromRawLoop_map L (fun xx => A.regs.at (A.project L xx)) (A.ToRawHist L).Location []
    (New r)
  simpa [FromRawHist, ToRawHist_Weight] using this

/-- The histogram rebuilt from the interchange form of a canonical histogram. -/
theorem FromRawHist_ToRawHist (L : GoLib) (A : Histogram) (hc : Canonical L A) :
    ∃ B, FromRawHist L (A.ToRawHist L) A.Resolution = some B
      ∧ B.Resolution = A.Resolution
      ∧ B.Registers.isSome = true
      ∧ ∀ key, B.regs.lookup key = A.regs.lookup key := by
  let f : F64 → ℚ := fun xx => A.regs.at (A.project L xx)
  let locs := (A.ToRawHist L).Location
  have hB : FromRawHist L (A.ToRawHist L) A.Resolution
      = some (insertAll L (New A.Resolution) (locs.map (fun x => (x, f x)))) :=
    FromRawHist_ToRawHist_eq L A A.Resolution
  refine ⟨_, hB, insertAll_Resolution _ _ _, insertAll_Registers _ _ _ rfl, ?_⟩
  intro key
  have hperm : List.Perm (locs.map (fun x => (x, f x)))
      (A.regs.entries.map (fun e => ((L.parseFloat e.1).1, f (L.parseFloat e.1).1))) := by
    have := (ToRawHist_Location_perm L A hc).map (fun x => (x, f x))
    simpa [List.map_map, Function.comp_def] using this
  have hproj : ∀ x, (New A.Resolution).project L x = A.project L x := fun _ => rfl
  have hcan : ∀ e ∈ A.regs.entries, A.project L (L.parseFloat e.1).1 = e.1 :=
    fun e he => (hc e.1 (List.mem_map_of_mem _ he)).2
  apply lookup_eq_of_mem_at
  · rw [insertAll_mem]
    simp only [New_regs, AList.not_mem_empty, false_or, hproj]
    constructor
    · rintro ⟨p, hp, hkey⟩
      obtain ⟨e, he, rfl⟩ := List.mem_map.mp (hperm.mem_iff.mp hp)
      simp only at hkey
      rw [hcan e he] at hkey
      rw [AList.mem_keys, ← hkey]
      exact List.mem_map_of_mem _ he
    · intro hk
      rw [AList.mem_keys] at hk
      obtain ⟨e, he, rfl⟩ := List.mem_map.mp hk
      refine ⟨((L.parseFloat e.1).1, f (L.parseFloat e.1).1), ?_, hcan e he⟩
      exact hperm.mem_iff.mpr (List.mem_map_of_mem _ he)
  · rw [insertAll_at]
    simp only [New_regs, hproj]
    have h0 : (∅ : Regs).at key = 0 := rfl
    rw [h0, zero_add, ((hperm.filter _).map _).sum_eq]
    have := sum_filter_canonical (A.project L) (fun s => (L.parseFloat s).1) A.regs.at
      A.regs.entries A.regs.nodupKeys hcan key
    simp only [f]
    rw [this]
    split_ifs with hk
    · rfl
    · have : A.regs.lookup key = none := by
        rw [AList.lookup_eq_none, AList.mem_keys]; exact hk
      simp [Regs.at, this]

theorem zip_map_self (g : F64 → ℚ) (l : List F64) :
    l.zip (l.map g) = l.map (fun x => (x, g x)) := by
  induction l with
  | nil => rfl
  | cons x l ih => simp [ih]

/-- Two canonical histograms with the same resolution and the same key-to-weight map have
the same (location, weight) pairs in their interchange forms. -/
theorem ToRawHist_pairs_perm (L : GoLib) (A B : Histogram) (hA : Canonical L A)
    (hres : B.Resolution = A.Resolution) (hlk : ∀ key, B.regs.lookup key = A.regs.lookup key) :
    List.Perm ((B.ToRawHist L).Location.zip (B.ToRawHist L).Weight)
      ((A.ToRawHist L).Location.zip (A.ToRawHist L).Weight) := by
  have hproj : ∀ x, B.project L x = A.project L x := by
    intro x; simp only [Histogram.project, hres]
  have hkeys : ∀ key, key ∈ B.regs.keys ↔ key ∈ A.regs.keys := by
    intro key
    rw [← AList.mem_keys, ← AList.mem_keys, ← AList.lookup_isSome, ← AList.lookup_isSome, hlk]
  have hB : Canonical L B := by
    intro key hk
    rw [hproj]
    exact hA key ((hkeys key).mp hk)
  have hg : ∀ xx, B.regs.at (B.project L xx) = A.regs.at (A.project L xx) := by
    intro xx
    show (B.regs.lookup (B.project L xx)).getD 0 = (A.regs.lookup (A.project L xx)).getD 0
    rw [hlk, hproj]
  rw [ToRawHist_Weight, ToRawHist_Weight, zip_map_self, zip_map_self]
  simp only [hg]
  apply List.Perm.map
  have hent : List.Perm B.regs.entries A.regs.entries := by
    apply List.lookup_ext B.regs.nodupKeys A.regs.nodupKeys
    intro x y
    have := hlk x
    simp only [AList.lookup] at this
    rw [this]
  exact ((ToRawHist_Location_perm L B hB).trans (hent.map _)).trans
    (ToRawHist_Location_perm L A hA).symm

/-! ## Decimal digits -/

theorem digitChar_spec (d : Nat) :
    isDigit (digitChar d) = true ∧ (digitChar d).toNat - 48 = d % 10 := by
  have h : d % 10 < 10 := Nat.mod_lt _ (by norm_num)
  unfold digitChar
  interval_cases d % 10 <;> exact ⟨by decide, by decide⟩

theorem decVal_foldl (cs : List Char) (a : Nat) :
    cs.foldl (fun acc c => acc * 10 + (c.toNat - 48)) a = a * 10 ^ cs.length + decVal cs := by
  induction cs generalizing a with
  | nil => simp [decVal]
  | cons c cs ih =>
    simp only [decVal, List.foldl_cons, List.length_cons]
    rw [ih, ih (0 * 10 + (c.toNat - 48))]
    ring

theorem decVal_append (cs ds : List Char) :
    decVal (cs ++ ds) = decVal cs * 10 ^ ds.length + decVal ds := by
  simp only [decVal, List.foldl_append]
  rw [decVal_foldl]
  rfl

theorem decVal_cons (c : Char) (cs : List Char) :
    decVal (c :: cs) = (c.toNat - 48) * 10 ^ cs.length + decVal cs := by
  simp only [decVal, List.foldl_cons]
  rw [decVal_foldl]
  simp [decVal]

theorem lastDigits_acc (k n : Nat) (acc : List Char) :
    lastDigits k n acc = lastDigits k n [] ++ acc := by
  induction k generalizing n acc with
  | zero => rfl
  | succ k ih =>
    simp only [lastDigits]
    rw [ih (n / 10) (digitChar n :: acc), ih (n / 10) [digitChar n]]
    simp

theorem lastDigits_length (k n : Nat) : (lastDigits k n []).length = k := by
  induction k generalizing n with
  | zero => rfl
  | succ k ih =>
    simp only [lastDigits]
    rw [lastDigits_acc, List.length_append, ih]
    rfl

theorem lastDigits_isDigit (k n : Nat) : ∀ c ∈ lastDigits k n [], isDigit c = true := by
  induction k generalizing n with
  | zero => intro c hc; cases hc
  | succ k ih =>
    intro c hc
    simp only [lastDigits] at hc
    rw [lastDigits_acc, List.mem_append] at hc
    rcases hc with hc | hc
    · exact ih _ c hc
    · rw [List.mem_singleton] at hc
      rw [hc]; exact (digitChar_spec n).1

theorem lastDigits_val (k n : Nat) : decVal (lastDigits k n []) = n % 10 ^ k := by
  induction k generalizing n with
  | zero => simp [lastDigits, decVal, Nat.mod_one]
  | succ k ih =>
    simp only [lastDigits]
    rw [lastDigits_acc, decVal_append, ih]
    simp only [List.length_singleton, pow_one]
    have h1 : decVal [digitChar n] = n % 10 := by
      simp [decVal, (digitChar_spec n).2]
    rw [h1, pow_succ, mul_comm (10 ^ k) 10, Nat.mod_mul]
    ring

/-- With enough fuel, `decLenAux` brackets `n` between powers of ten. -/
theorem decLenAux_spec (fuel n : Nat) (hf : n ≤ fuel) (hn : 0 < n) :
    10 ^ (decLenAux fuel n - 1) ≤ n ∧ n < 10 ^ decLenAux fuel n := by
  induction fuel generalizing n with
  | zero => omega
  | succ fuel ih =>
    unfold decLenAux
    split_ifs with h
    · exact ⟨by simpa using hn, by simpa using h⟩
    · have h10 : 10 ≤ n := Nat.le_of_not_lt h
      have hpos : 0 < n / 10 := Nat.div_pos h10 (by norm_num)
      have hle : n / 10 ≤ fuel := by omega
      obtain ⟨h1, h2⟩ := ih (n / 10) hle hpos
      have hL : 1 ≤ decLenAux fuel (n / 10) := by
        cases fuel with
        | zero => simp [decLenAux]
        | succ f => unfold decLenAux; split_ifs <;> omega
      constructor
      · have : 1 + decLenAux fuel (n / 10) - 1 = (decLenAux fuel (n / 10) - 1) + 1 := by omega
        rw [this, pow_succ]
        calc 10 ^ (decLenAux fuel (n / 10) - 1) * 10 ≤ n / 10 * 10 := Nat.mul_le_mul_right _ h1
          _ ≤ n := Nat.div_mul_le_self n 10
      · rw [add_comm, pow_succ]
        have := Nat.lt_mul_of_div_lt h2 (by norm_num : 0 < 10)
        linarith

theorem decLen_spec (n : Nat) (hn : 0 < n) :
    10 ^ (decLen n - 1) ≤ n ∧ n < 10 ^ decLen n :=
  decLenAux_spec n n (le_refl _) hn

theorem decLen_pos (n : Nat) : 1 ≤ decLen n := by
  unfold decLen
  cases n with
  | zero => simp [decLenAux]
  | succ f => unfold decLenAux; split_ifs <;> omega

theorem lt_pow_decLen (n : Nat) : n < 10 ^ decLen n := by
  rcases Nat.eq_zero_or_pos n with h | h
  · subst h; exact Nat.pow_pos (by norm_num)
  · exact (decLen_spec n h).2

/-- The result of `scaleUp` is the least exponent that reaches `b`, given that none below the
start does and one within the fuel does. -/
theorem scaleUp_spec (B a b fuel j : Nat) (hprev : ∀ i, i < j → a * B ^ i < b)
    (hreach : b ≤ a * B ^ (j + fuel)) :
    b ≤ a * B ^ scaleUp B a b fuel j ∧ ∀ i, i < scaleUp B a b fuel j → a * B ^ i < b := by
  induction fuel generalizing j with
  | zero => exact ⟨by simpa [scaleUp] using hreach, by simpa [scaleUp] using hprev⟩
  | succ fuel ih =>
    unfold scaleUp
    split_ifs with h
    · exact ⟨h, hprev⟩
    · apply ih
      · intro i hi
        rcases Nat.lt_succ_iff_lt_or_eq.mp hi with h1 | h1
        · exact hprev i h1
        · rw [h1]; exact Nat.lt_of_not_le h
      · rw [show j + 1 + fuel = j + (fuel + 1) by ring]; exact hreach

/-! ## Rounding -/

/-- The value `roundHalfEven N D` is an integer nearest to `N / D`, the even one at a tie. -/
theorem roundHalfEven_spec (N D : Nat) (hD : 0 < D) :
    |(N : ℚ) / D - (roundHalfEven N D : ℚ)| ≤ 1 / 2
      ∧ (|(N : ℚ) / D - (roundHalfEven N D : ℚ)| = 1 / 2 → Even (roundHalfEven N D))
      ∧ N / D ≤ roundHalfEven N D ∧ roundHalfEven N D ≤ N / D + 1 := by
  have hDq : (0 : ℚ) < D := by exact_mod_cast hD
  have hN : (N : ℚ) = (D : ℚ) * ((N / D : ℕ) : ℚ) + ((N % D : ℕ) : ℚ) := by
    exact_mod_cast (Nat.div_add_mod N D).symm
  have hfrac : (N : ℚ) / D = ((N / D : ℕ) : ℚ) + ((N % D : ℕ) : ℚ) / D := by
    rw [hN, add_div, mul_div_cancel_left₀ _ (ne_of_gt hDq)]
  have hr0 : (0 : ℚ) ≤ ((N % D : ℕ) : ℚ) / D := by positivity
  unfold roundHalfEven
  split_ifs with h1 h2 h3
  · -- below the half
    have h1q : (2 : ℚ) * ((N % D : ℕ) : ℚ) < D := by exact_mod_cast h1
    have hlt : ((N % D : ℕ) : ℚ) / D < 1 / 2 := by
      rw [div_lt_iff₀ hDq]; linarith
    refine ⟨?_, ?_, le_refl _, Nat.le_succ _⟩
    · rw [hfrac, add_sub_cancel_left, abs_of_nonneg hr0]; exact le_of_lt hlt
    · intro h
      rw [hfrac, add_sub_cancel_left, abs_of_nonneg hr0] at h
      exact absurd h (ne_of_lt hlt)
  · -- tie, quotient even
    have h2q : (2 : ℚ) * ((N % D : ℕ) : ℚ) = D := by exact_mod_cast h2
    have heq : ((N % D : ℕ) : ℚ) / D = 1 / 2 := by
      rw [div_eq_iff (ne_of_gt hDq)]; linarith
    refine ⟨?_, fun _ => Nat.even_iff.mpr h3, le_refl _, Nat.le_succ _⟩
    rw [hfrac, add_sub_cancel_left, heq, abs_of_pos (by norm_num : (0 : ℚ) < 1 / 2)]
  · -- tie, quotient odd
    have h2q : (2 : ℚ) * ((N % D : ℕ) : ℚ) = D := by exact_mod_cast h2
    have heq : ((N % D : ℕ) : ℚ) / D = 1 / 2 := by
      rw [div_eq_iff (ne_of_gt hDq)]; linarith
    refine ⟨?_, fun _ => ?_, Nat.le_succ _, le_refl _⟩
    · rw [hfrac, heq]; push_cast
      rw [show ((N / D : ℕ) : ℚ) + 1 / 2 - (((N / D : ℕ) : ℚ) + 1) = -(1 / 2) by ring, abs_neg,
        abs_of_pos (by norm_num : (0 : ℚ) < 1 / 2)]
    · rw [Nat.even_add_one, Nat.even_iff]; exact h3
  · -- above the half
    have h1q : (D : ℚ) < 2 * ((N % D : ℕ) : ℚ) := by
      have : D < 2 * (N % D) := by omega
      exact_mod_cast this
    have hltD : ((N % D : ℕ) : ℚ) < D := by exact_mod_cast Nat.mod_lt N hD
    have hgt : 1 / 2 < ((N % D : ℕ) : ℚ) / D := by
      rw [lt_div_iff₀ hDq]; linarith
    have hlt1 : ((N % D : ℕ) : ℚ) / D < 1 := by
      rw [div_lt_one hDq]; exact hltD
    have habs : |(N : ℚ) / D - ((N / D + 1 : ℕ) : ℚ)| = 1 - ((N % D : ℕ) : ℚ) / D := by
      rw [hfrac]; push_cast
      rw [show ((N / D : ℕ) : ℚ) + ((N % D : ℕ) : ℚ) / D - (((N / D : ℕ) : ℚ) + 1)
        = -(1 - ((N % D : ℕ) : ℚ) / D) by ring, abs_neg, abs_of_pos (by linarith)]
    refine ⟨?_, fun h => ?_, Nat.le_succ _, le_refl _⟩
    · rw [habs]; linarith
    · rw [habs] at h; linarith

/-- The value `decExp a b` is the decimal exponent of the positive rational `a / b`. -/
theorem decExp_spec (a b : Nat) (ha : 0 < a) (hb : 0 < b) :
    (10 : ℚ) ^ (decExp a b) ≤ (a : ℚ) / b
      ∧ (a : ℚ) / b < (10 : ℚ) ^ (decExp a b + 1) := by
  have hbq : (0 : ℚ) < b := by exact_mod_cast hb
  unfold decExp
  split_ifs with h
  · have hq : 0 < a / b := Nat.div_pos h hb
    obtain ⟨h1, h2⟩ := decLen_spec (a / b) hq
    have hL := decLen_pos (a / b)
    have hk : ((decLen (a / b) : ℤ) - 1) = ((decLen (a / b) - 1 : ℕ) : ℤ) := by omega
    have hk2 : (((decLen (a / b) - 1 : ℕ) : ℤ) + 1) = ((decLen (a / b) : ℕ) : ℤ) := by omega
    rw [hk, hk2, zpow_natCast, zpow_natCast]
    constructor
    · rw [le_div_iff₀ hbq]
      have : 10 ^ (decLen (a / b) - 1) * b ≤ a :=
        le_trans (Nat.mul_le_mul_right _ h1) (Nat.div_mul_le_self a b)
      exact_mod_cast this
    · rw [div_lt_iff₀ hbq]
      have : a < 10 ^ decLen (a / b) * b := Nat.lt_mul_of_div_lt h2 hb
      exact_mod_cast this
  · have hab : a < b := Nat.lt_of_not_le h
    have hreach : b ≤ a * 10 ^ (0 + b) := by
      have h1 : b < 10 ^ b := Nat.lt_pow_self (by norm_num) b
      calc b ≤ 10 ^ b := le_of_lt h1
        _ = 1 * 10 ^ b := (one_mul _).symm
        _ ≤ a * 10 ^ (0 + b) := by rw [zero_add]; exact Nat.mul_le_mul_right _ ha
    obtain ⟨hj1, hj2⟩ := scaleUp_spec 10 a b b 0 (fun i hi => absurd hi (Nat.not_lt_zero i)) hreach
    have hj : 1 ≤ scaleUp 10 a b b 0 := by
      rcases Nat.eq_zero_or_pos (scaleUp 10 a b b 0) with h0 | h0
      · rw [h0] at hj1; simp at hj1; omega
      · exact h0
    have hj3 := hj2 (scaleUp 10 a b b 0 - 1) (by omega)
    have hk2 : (-(scaleUp 10 a b b 0 : ℤ) + 1) = -((scaleUp 10 a b b 0 - 1 : ℕ) : ℤ) := by omega
    rw [hk2, zpow_neg, zpow_neg, zpow_natCast, zpow_natCast, ← one_div, ← one_div]
    have hp1 : (0 : ℚ) < 10 ^ scaleUp 10 a b b 0 := by positivity
    have hp2 : (0 : ℚ) < 10 ^ (scaleUp 10 a b b 0 - 1) := by positivity
    constructor
    · rw [div_le_div_iff₀ hp1 hbq, one_mul]
      exact_mod_cast hj1
    · rw [div_lt_div_iff₀ hbq hp2, one_mul]
      exact_mod_cast hj3

theorem scaledRound_spec (p a b : Nat) (k : Int) (hb : 0 < b) :
    ∃ N D : Nat, 0 < D ∧ scaledRound p a b k = roundHalfEven N D
      ∧ (N : ℚ) / D = ((a : ℚ) / b) / (10 : ℚ) ^ (k - p) := by
  have hbq : (b : ℚ) ≠ 0 := by exact_mod_cast (ne_of_gt hb)
  unfold scaledRound
  split_ifs with hs
  · refine ⟨a * 10 ^ ((p : Int) - k).toNat, b, hb, rfl, ?_⟩
    have ht : (((p : Int) - k).toNat : ℤ) = (p : ℤ) - k := Int.toNat_of_nonneg hs
    have hu : (10 : ℚ) ^ (k - p) = ((10 : ℚ) ^ ((p : Int) - k).toNat)⁻¹ := by
      rw [← zpow_natCast, ht, ← zpow_neg]; congr 1; ring
    rw [hu]; push_cast; field_simp
  · have hs' : 0 ≤ k - (p : Int) := by omega
    refine ⟨a, b * 10 ^ (k - (p : Int)).toNat, by positivity, rfl, ?_⟩
    have ht : ((k - (p : Int)).toNat : ℤ) = k - (p : ℤ) := Int.toNat_of_nonneg hs'
    have hu : (10 : ℚ) ^ (k - p) = (10 : ℚ) ^ (k - (p : Int)).toNat := by
      rw [← zpow_natCast, ht]
    rw [hu]; push_cast; field_simp

/-- The pair `sciDigits p a b` is the correctly rounded `p + 1`-digit decimal of `a / b`. -/
theorem sciDigits_spec (p a b : Nat) (ha : 0 < a) (hb : 0 < b) :
    10 ^ p ≤ (sciDigits p a b).1 ∧ (sciDigits p a b).1 < 10 ^ (p + 1)
      ∧ |(a : ℚ) / b - ((sciDigits p a b).1 : ℚ) * (10 : ℚ) ^ ((sciDigits p a b).2 - p)|
          ≤ (10 : ℚ) ^ ((sciDigits p a b).2 - p) / 2
      ∧ (|(a : ℚ) / b - ((sciDigits p a b).1 : ℚ) * (10 : ℚ) ^ ((sciDigits p a b).2 - p)|
          = (10 : ℚ) ^ ((sciDigits p a b).2 - p) / 2 → Even (sciDigits p a b).1) := by
  obtain ⟨hk1, hk2⟩ := decExp_spec a b ha hb
  obtain ⟨N, D, hD, hrd, hND⟩ := scaledRound_spec p a b (decExp a b) hb
  obtain ⟨hr1, hr2, hr3, hr4⟩ := roundHalfEven_spec N D hD
  set k := decExp a b with hk
  set n0 := scaledRound p a b k with hn0
  have hDq : (0 : ℚ) < D := by exact_mod_cast hD
  have hu : (0 : ℚ) < (10 : ℚ) ^ (k - p) := by positivity
  -- the scaled value lies in `[10^p, 10^(p+1))`
  have hw1 : ((10 ^ p : ℕ) : ℚ) ≤ (N : ℚ) / D := by
    rw [hND, le_div_iff₀ hu]; push_cast
    rw [← zpow_natCast, ← zpow_add₀ (by norm_num : (10 : ℚ) ≠ 0)]
    simpa using hk1
  have hw2 : (N : ℚ) / D < ((10 ^ (p + 1) : ℕ) : ℚ) := by
    rw [hND, div_lt_iff₀ hu]; push_cast
    rw [← zpow_natCast, ← zpow_add₀ (by norm_num : (10 : ℚ) ≠ 0)]
    have : ((p + 1 : ℕ) : ℤ) + (k - p) = k + 1 := by push_cast; ring
    rw [this]; exact hk2
  have hlo : 10 ^ p ≤ n0 := by
    have : 10 ^ p * D ≤ N := by
      rw [le_div_iff₀ hDq] at hw1; exact_mod_cast hw1
    rw [hrd]
    exact le_trans ((Nat.le_div_iff_mul_le hD).mpr this) hr3
  have hhi : n0 ≤ 10 ^ (p + 1) := by
    have : N < 10 ^ (p + 1) * D := by
      rw [div_lt_iff₀ hDq] at hw2; exact_mod_cast hw2
    have := (Nat.div_lt_iff_lt_mul hD).mpr this
    rw [hrd]; omega
  -- distance to the rounded value, scaled back
  have hdist : |(a : ℚ) / b - (n0 : ℚ) * (10 : ℚ) ^ (k - p)|
      = |(N : ℚ) / D - (n0 : ℚ)| * (10 : ℚ) ^ (k - p) := by
    rw [hND, ← abs_of_pos hu, ← abs_mul, abs_of_pos hu]
    congr 1
    field_simp
    ring
  have hsd : sciDigits p a b = if n0 = 10 ^ (p + 1) then (10 ^ p, k + 1) else (n0, k) := by
    simp only [sciDigits, if_neg (ne_of_gt ha)]
  rw [hsd]
  split_ifs with hc
  · -- carry into the next decade
    have hval : ((10 ^ p : ℕ) : ℚ) * (10 : ℚ) ^ (k + 1 - p) = (n0 : ℚ) * (10 : ℚ) ^ (k - p) := by
      rw [hc]; push_cast
      rw [← zpow_natCast, ← zpow_natCast, ← zpow_add₀ (by norm_num : (10 : ℚ) ≠ 0),
        ← zpow_add₀ (by norm_num : (10 : ℚ) ≠ 0)]
      congr 1; push_cast; ring
    have hstep : (10 : ℚ) ^ (k + 1 - p) = 10 * (10 : ℚ) ^ (k - p) := by
      rw [show k + 1 - (p : ℤ) = 1 + (k - p) by ring, zpow_add₀ (by norm_num : (10 : ℚ) ≠ 0)]
      simp
    have hle : |(a : ℚ) / b - (n0 : ℚ) * (10 : ℚ) ^ (k - p)| ≤ (10 : ℚ) ^ (k - p) / 2 := by
      rw [hdist, hrd]
      calc |(N : ℚ) / D - (roundHalfEven N D : ℚ)| * (10 : ℚ) ^ (k - p)
          ≤ 1 / 2 * (10 : ℚ) ^ (k - p) := mul_le_mul_of_nonneg_right hr1 (le_of_lt hu)
        _ = (10 : ℚ) ^ (k - p) / 2 := by ring
    refine ⟨le_refl _, Nat.pow_lt_pow_right (by norm_num) (Nat.lt_succ_self p), ?_, ?_⟩
    · show |(a : ℚ) / b - ((10 ^ p : ℕ) : ℚ) * (10 : ℚ) ^ (k + 1 - p)| ≤ _
      rw [hval, hstep]; linarith
    · show |(a : ℚ) / b - ((10 ^ p : ℕ) : ℚ) * (10 : ℚ) ^ (k + 1 - p)| = _ → _
      rw [hval, hstep]; intro h; exfalso; linarith
  · refine ⟨hlo, lt_of_le_of_ne hhi hc, ?_, ?_⟩
    · show |(a : ℚ) / b - (n0 : ℚ) * (10 : ℚ) ^ (k - p)| ≤ _
      rw [hdist, hrd]
      calc |(N : ℚ) / D - (roundHalfEven N D : ℚ)| * (10 : ℚ) ^ (k - p)
          ≤ 1 / 2 * (10 : ℚ) ^ (k - p) := mul_le_mul_of_nonneg_right hr1 (le_of_lt hu)
        _ = (10 : ℚ) ^ (k - p) / 2 := by ring
    · show |(a : ℚ) / b - (n0 : ℚ) * (10 : ℚ) ^ (k - p)| = _ → Even n0
      rw [hdist, hrd]
      intro h
      apply hr2
      have : |(N : ℚ) / D - (roundHalfEven N D : ℚ)| * (10 : ℚ) ^ (k - p)
          = 1 / 2 * (10 : ℚ) ^ (k - p) := by rw [h]; ring
      exact mul_right_cancel₀ (ne_of_gt hu) this

/-! ## The layout of `%e` -/

theorem sciChars_layout (neg : Bool) (p n : Nat) (k : Int) :
    sciChars neg p n k
      = (if neg then ['-'] else []) ++ digitChar (n / 10 ^ p)
          :: ((if p = 0 then [] else '.' :: lastDigits p n [])
            ++ 'e' :: (if k < 0 then '-' else '+')
              :: lastDigits (max 2 (decLen k.natAbs)) k.natAbs []) := by
  simp [sciChars, expChars, lastDigits]

theorem decVal_lead_frac (p n : Nat) (hn : n < 10 ^ (p + 1)) :
    decVal (digitChar (n / 10 ^ p) :: lastDigits p n []) = n := by
  rw [decVal_cons, lastDigits_length, lastDigits_val, (digitChar_spec _).2]
  have h10 : n / 10 ^ p < 10 := by
    rw [Nat.div_lt_iff_lt_mul (by positivity)]
    rw [pow_succ, mul_comm] at hn; exact hn
  rw [Nat.mod_eq_of_lt h10, mul_comm]
  exact Nat.div_add_mod n (10 ^ p)

theorem decVal_expDigits (e : Nat) :
    decVal (lastDigits (max 2 (decLen e)) e []) = e := by
  rw [lastDigits_val]
  apply Nat.mod_eq_of_lt
  calc e < 10 ^ decLen e := lt_pow_decLen e
    _ ≤ 10 ^ max 2 (decLen e) := Nat.pow_le_pow_right (by norm_num) (le_max_right _ _)

theorem formatE_finite (p : Nat) (x : F64) (hx : x.isFinite = true) :
    formatE p x
      = String.mk (sciChars x.sign p (sciDigits p x.num x.den).1 (sciDigits p x.num x.den).2) := by
  have h : x.expo.val ≠ 2047 := by simpa [F64.isFinite] using hx
  simp [formatE, F64.isNaN, F64.isInf, h]

theorem sprintfE_inRange (r : Nat) (hr : r ≤ 10000009) (x : F64) :
    sprintfE (r : Int) x = formatE r x := by
  have h1 : ¬ ((r : Int) < 0) := by omega
  have h2 : (r : Int) ≤ 10000009 := by omega
  simp only [sprintfE, if_neg h1, if_pos h2, Int.toNat_ofNat]

theorem F64.den_pos (x : F64) : 0 < x.den := by
  unfold F64.den; positivity

/-! ## `Combine` and `Cancel` -/

theorem foldl_insertKey_Total (L : GoLib) (out : Histogram)
    (l : List (Sigma (fun _ : String => ℚ))) :
    (l.foldl (insertKey L) out).Total = out.Total + wsum l := by
  rw [foldl_insertKey, insertAll_Total, List.map_map]
  rfl

theorem foldl_cancelKey_Total (L : GoLib) (out : Histogram)
    (l : List (Sigma (fun _ : String => ℚ))) :
    (l.foldl (cancelKey L) out).Total = out.Total - wsum l := by
  rw [foldl_cancelKey, insertAll_Total, List.map_map]
  have : (List.map ((fun p : F64 × ℚ => p.2) ∘ fun e : Sigma (fun _ : String => ℚ) =>
      ((L.parseFloat e.1).1, -e.2)) l).sum = - wsum l := by
    induction l with
    | nil => simp [wsum]
    | cons e l ih =>
      simp only [wsum, List.map_cons, List.sum_cons, Function.comp_apply] at ih ⊢
      rw [ih]; ring
  rw [this]; ring

theorem New_Total (Resolution : Int) : (New Resolution).Total = 0 := rfl

/-! ## The claims -/

/-- C1: for every pair of histograms `A` and `B` (any resolutions, any registers), with
exact weights, `A.Combine(B).Total()` equals `A.Total() + B.Total()`; in particular
`x.Combine(x).Total()` equals `2 * x.Total()`. -/
theorem Combine_Total_additive (L : GoLib) (A B : Histogram) :
    (A.Combine L B).Total = A.Total + B.Total
      ∧ (A.Combine L A).Total = 2 * A.Total := by
  have h : ∀ X Y : Histogram, (X.Combine L Y).Total = X.Total + Y.Total := by
    intro X Y
    simp only [Histogram.Combine, foldl_insertKey_Total, New_Total]
    rw [Total_eq_wsum X, Total_eq_wsum Y]
    ring
  exact ⟨h A B, by rw [h A A]; ring⟩

/-- C2: for every histogram `A`, with exact weights, `A.Cancel(A).Total()` equals `0`. -/
theorem Cancel_self_Total (L : GoLib) (A : Histogram) :
    (A.Cancel L A).Total = 0 := by
  simp only [Histogram.Cancel, foldl_insertKey_Total, foldl_cancelKey_Total, New_Total]
  ring

/-- C3: for every pair of histograms `m` and `o`, `m.Min(o)` has the resolution of `m`,
its keys are exactly the keys present in both operands, and the weight of such a key is
the smaller of the two weights; a key of only one operand is absent. With the `x` and
`q` of the test, `x.Min(q).Total()` is `17`. -/
theorem Min_pointwise (m o : Histogram) :
    (m.Min o).Resolution = m.Resolution
      ∧ (∀ key, key ∈ (m.Min o).regs ↔ key ∈ m.regs ∧ key ∈ o.regs)
      ∧ (∀ key, (m.Min o).regs.lookup key
          = match m.regs.lookup key, o.regs.lookup key with
            | some a, some b => some (min a b)
            | _, _ => none)
      ∧ (xTest.Min qTest).Total = 17 := by
  refine ⟨?_, ?_, Min_lookup m o, ?_⟩
  · exact foldl_minStep_Resolution o (New m.Resolution) m.regs.entries
  · intro key
    rw [← AList.lookup_isSome, ← AList.lookup_isSome, ← AList.lookup_isSome, Min_lookup]
    cases m.regs.lookup key <;> cases o.regs.lookup key <;> simp
  · simp [Histogram.Min, Histogram.Total, minStep, Histogram.regs, New, xTest, qTest,
      AList.insert, AList.lookup, List.kinsert, List.kerase, List.dlookup, AList.entries]
    norm_num

/-- C9: for every histogram `m` (also one whose map is absent), value `v` and weight `w`:
reading `v` after `Insert(v, w)` gives the previous reading plus `w`; a reading of an
absent key, or against an absent map, is `0`; a value `u` with another projection reads
as before; the resolution is unchanged. In the test, `New(2).Insert(123.3, 23.32)`
reads `23.32` at `123.3`. -/
theorem Insert_Read (L : GoLib) (m : Histogram) (v : F64) (w : ℚ) :
    (m.Insert L v w).Read L v = m.Read L v + w
      ∧ (∀ u, m.project L u ≠ m.project L v → (m.Insert L v w).Read L u = m.Read L u)
      ∧ (m.Insert L v w).Resolution = m.Resolution
      ∧ (∀ u, m.regs.lookup (m.project L u) = none → m.Read L u = 0)
      ∧ (m.Registers = none → ∀ u, m.Read L u = 0)
      ∧ ((New 2).Insert goLib (f64 "123.3") (2332 / 100)).Read goLib (f64 "123.3")
          = 2332 / 100 := by
  have hread : ∀ (L : GoLib) (h : Histogram) (x : F64) (c : ℚ) (u : F64),
      (h.Insert L x c).Read L u
        = h.Read L u + (if h.project L x = h.project L u then c else 0) := by
    intro L h x c u
    simp only [Histogram.Read, Insert_project, Insert_at]
  refine ⟨?_, ?_, rfl, ?_, ?_, ?_⟩
  · rw [hread]; simp
  · intro u hu
    rw [hread, if_neg (fun e => hu e.symm)]; simp
  · intro u hu
    simp only [Histogram.Read, Regs.at, hu, Option.getD_none]
  · intro hnil u
    simp only [Histogram.Read, Histogram.regs, hnil, Regs.at, AList.lookup_empty,
      Option.getD_none]
  · rw [hread]
    simp [Histogram.Read, Histogram.regs, New, Regs.at]

/-- Witness for C9: in the test's histogram, inserting at `123.3` leaves the reading at
`23456.43` as it was. -/
theorem Insert_Read_witness :
    (New 2).project goLib (f64 "23456.43") ≠ (New 2).project goLib (f64 "123.3")
      ∧ ((New 2).Insert goLib (f64 "123.3") (2332 / 100)).Read goLib (f64 "23456.43")
          = (New 2).Read goLib (f64 "23456.43") :=
  ⟨by decide,
    (Insert_Read goLib (New 2) (f64 "123.3") (2332 / 100)).2.1 (f64 "23456.43") (by decide)⟩

/-- C10: for every histogram `m`, value `v` and weights `w1`, `w2` (exact weights):
`m.Insert(v, w1).Insert(v, w2)` and `m.Insert(v, w1 + w2)` give the same `Read` at
every value and the same `Total`. -/
theorem Insert_accumulates (L : GoLib) (m : Histogram) (v : F64) (w1 w2 : ℚ) :
    (∀ u, ((m.Insert L v w1).Insert L v w2).Read L u = (m.Insert L v (w1 + w2)).Read L u)
      ∧ ((m.Insert L v w1).Insert L v w2).Total = (m.Insert L v (w1 + w2)).Total := by
  constructor
  · intro u
    simp only [Histogram.Read, Insert_project, Insert_at]
    by_cases h : m.project L v = m.project L u
    · simp only [h, if_true]; ring
    · simp only [h, if_false]; ring
  · simp only [Insert_Total]; ring

/-- C5 (as amended): for every histogram `A` each of whose keys decodes without error
and projects back to itself at the resolution of `A`, `FromRawHist(A.ToRawHist(),
A.Resolution)` returns a histogram with the resolution of `A` and a non-nil map that
holds exactly the key-to-weight pairs of `A`. -/
theorem Interchange_roundtrip (L : GoLib) (A : Histogram) (hc : Canonical L A) :
    ∃ B, FromRawHist L (A.ToRawHist L) A.Resolution = some B
      ∧ B.Resolution = A.Resolution
      ∧ B.Registers.isSome = true
      ∧ ∀ key, B.regs.lookup key = A.regs.lookup key :=
  FromRawHist_ToRawHist L A hc

/-- Witness for C5: the test's histogram `x`. -/
theorem Interchange_roundtrip_witness :
    Canonical goLib xTest
      ∧ ∃ B, FromRawHist goLib (xTest.ToRawHist goLib) xTest.Resolution = some B
          ∧ B.Resolution = xTest.Resolution
          ∧ B.Registers.isSome = true
          ∧ ∀ key, B.regs.lookup key = xTest.regs.lookup key :=
  have h : Canonical goLib xTest := by
    show ∀ key ∈ xTest.regs.keys, _
    decide
  ⟨h, Interchange_roundtrip goLib xTest h⟩

/-- Counterexample to C5 as stated: the histogram of resolution 2 with the single register
`"1.2e+02": 5`. Its key decodes without error (to 120), so nothing is skipped, but
`ToRawHist` reads the weight under `"1.20e+02"`, and the rebuilt histogram has lost the
key `"1.2e+02"` and its weight. -/
theorem Interchange_roundtrip_counterexample :
    (∀ key ∈ coarseKey.regs.keys, (goLib.parseFloat key).2 = true)
      ∧ ∃ B, FromRawHist goLib (coarseKey.ToRawHist goLib) coarseKey.Resolution = some B
          ∧ B.regs.lookup "1.2e+02" = none
          ∧ coarseKey.regs.lookup "1.2e+02" = some 5 := by
  refine ⟨by decide, _, FromRawHist_ToRawHist_eq goLib coarseKey coarseKey.Resolution, ?_, ?_⟩
  · have hloc : (coarseKey.ToRawHist goLib).Location = [f64 "120"] := by decide
    rw [AList.lookup_eq_none, insertAll_mem, hloc]
    have hp : (New coarseKey.Resolution).project goLib (f64 "120") ≠ "1.2e+02" := by decide
    simpa [New_regs] using hp
  · rfl

set_option maxRecDepth 100000 in
/-- C7 (the code does not do this): evaluation of `project` and of the decoding of its
key at three finite values.

* At resolution 2 the key of `math.MaxFloat64` is `"1.80e+308"`, which `ParseFloat`
  rejects with a range error: decoding does not succeed.
* At resolution 1 the key of the subnormal `21 * 2^-1074` is `"1.0e-322"`; it decodes to
  `20 * 2^-1074`, whose key is `"9.9e-323"`.
* At resolution 15 the key of `1.0000000000000001e23` is `"1.000000000000000e+23"`; it
  decodes to `9.999999999999999e22`, whose key is `"9.999999999999999e+22"`.

The value of the test, `456.32` at resolution 2, does round-trip. -/
theorem project_roundtrip_fails :
    ((New 2).project goLib maxFloat64 = "1.80e+308"
        ∧ goLib.parseFloat "1.80e+308" = (F64.inf false, false))
      ∧ ((New 1).project goLib tiny21 = "1.0e-322"
        ∧ goLib.parseFloat "1.0e-322" = (tiny20, true)
        ∧ (New 1).project goLib tiny20 = "9.9e-323")
      ∧ ((New 15).project goLib above1e23 = "1.000000000000000e+23"
        ∧ goLib.parseFloat "1.000000000000000e+23" = (below1e23, true)
        ∧ (New 15).project goLib below1e23 = "9.999999999999999e+22")
      ∧ ((goLib.parseFloat ((New 2).project goLib (f64 "456.32"))).2 = true
        ∧ (New 2).project goLib (goLib.parseFloat ((New 2).project goLib (f64 "456.32"))).1
            = (New 2).project goLib (f64 "456.32")) := by
  refine ⟨⟨?_, ?_⟩, ⟨?_, ?_, ?_⟩, ⟨?_, ?_, ?_⟩, ⟨?_, ?_⟩⟩ <;> decide

set_option maxRecDepth 100000 in
/-- What the failure of the round trip does to an export: after
`New(15).Insert(1.0000000000000001e23, 1)` the value reads `1`, but `ToRawHist` lists the
location `9.999999999999999e22` with weight `0`. -/
theorem ToRawHist_after_unstable_key :
    ((New 15).Insert goLib above1e23 1).Read goLib above1e23 = 1
      ∧ (((New 15).Insert goLib above1e23 1).ToRawHist goLib).Location = [below1e23]
      ∧ (((New 15).Insert goLib above1e23 1).ToRawHist goLib).Weight = [0] := by
  have hloc : (((New 15).Insert goLib above1e23 1).ToRawHist goLib).Location = [below1e23] := by
    decide
  have hne : (New 15).project goLib above1e23 ≠ (New 15).project goLib below1e23 := by decide
  refine ⟨?_, hloc, ?_⟩
  · show ((New 15).Insert goLib above1e23 1).regs.at
      (((New 15).Insert goLib above1e23 1).project goLib above1e23) = 1
    rw [Insert_project, Insert_at, if_pos rfl]
    simp [New_regs, Regs.at]
  · rw [ToRawHist_Weight, hloc]
    show [((New 15).Insert goLib above1e23 1).regs.at
      (((New 15).Insert goLib above1e23 1).project goLib below1e23)] = [0]
    rw [Insert_project, Insert_at, if_neg hne]
    simp [New_regs, Regs.at]

set_option maxRecDepth 100000 in
/-- Counterexample to C8 as stated: at resolution `100000000` the format string is
`"%.100000000e"`; `fmt` gives up on a precision that large and never reaches the verb, so
the key of the finite value `345.234212312` is not in scientific notation but the text
`"%!(NOVERB)%!(EXTRA float64=345.234212312)"`. -/
theorem project_format_counterexample :
    (f64 "345.234212312").isFinite = true
      ∧ (New 100000000).project goLib (f64 "345.234212312")
          = "%!(NOVERB)%!(EXTRA float64=345.234212312)" := by
  constructor <;> decide

/-! ## Keys of `Combine`, `Cancel`, `Min` and `FromRawHist` -/

theorem foldl_insertKey_mem (L : GoLib) (out : Histogram)
    (l : List (Sigma (fun _ : String => ℚ))) (key : String) :
    key ∈ (l.foldl (insertKey L) out).regs
      ↔ key ∈ out.regs ∨ ∃ e ∈ l, out.project L (L.parseFloat e.1).1 = key := by
  rw [foldl_insertKey, insertAll_mem]
  simp only [List.mem_map, exists_exists_and_eq_and]

theorem foldl_cancelKey_mem (L : GoLib) (out : Histogram)
    (l : List (Sigma (fun _ : String => ℚ))) (key : String) :
    key ∈ (l.foldl (cancelKey L) out).regs
      ↔ key ∈ out.regs ∨ ∃ e ∈ l, out.project L (L.parseFloat e.1).1 = key := by
  rw [foldl_cancelKey, insertAll_mem]
  simp only [List.mem_map, exists_exists_and_eq_and]

theorem foldl_insertKey_project (L : GoLib) (out : Histogram)
    (l : List (Sigma (fun _ : String => ℚ))) (x : F64) :
    (l.foldl (insertKey L) out).project L x = out.project L x := by
  rw [foldl_insertKey]
  simp only [Histogram.project, insertAll_Resolution]

theorem foldl_cancelKey_project (L : GoLib) (out : Histogram)
    (l : List (Sigma (fun _ : String => ℚ))) (x : F64) :
    (l.foldl (cancelKey L) out).project L x = out.project L x := by
  rw [foldl_cancelKey]
  simp only [Histogram.project, insertAll_Resolution]

theorem mem_regs_iff_entry (r : Regs) (k : String) :
    k ∈ r ↔ ∃ e ∈ r.entries, e.1 = k := by
  rw [AList.mem_keys, AList.keys, List.keys, List.mem_map]

/-- The keys of `Combine`: the projections of the decoded keys of both operands. -/
theorem Combine_mem (L : GoLib) (m x : Histogram) (key : String) :
    key ∈ (m.Combine L x).regs
      ↔ ∃ k, (k ∈ m.regs ∨ k ∈ x.regs) ∧ m.project L (L.parseFloat k).1 = key := by
  have hp : ∀ v, (New m.Resolution).project L v = m.project L v := fun _ => rfl
  simp only [Histogram.Combine, foldl_insertKey_mem, foldl_insertKey_project, New_regs,
    AList.not_mem_empty, false_or, hp]
  constructor
  · rintro (⟨e, he, h⟩ | ⟨e, he, h⟩)
    · exact ⟨e.1, Or.inr ((mem_regs_iff_entry _ _).mpr ⟨e, he, rfl⟩), h⟩
    · exact ⟨e.1, Or.inl ((mem_regs_iff_entry _ _).mpr ⟨e, he, rfl⟩), h⟩
  · rintro ⟨k, hk | hk, h⟩
    · obtain ⟨e, he, rfl⟩ := (mem_regs_iff_entry _ _).mp hk
      exact Or.inr ⟨e, he, h⟩
    · obtain ⟨e, he, rfl⟩ := (mem_regs_iff_entry _ _).mp hk
      exact Or.inl ⟨e, he, h⟩

theorem Cancel_mem (L : GoLib) (m x : Histogram) (key : String) :
    key ∈ (m.Cancel L x).regs
      ↔ ∃ k, (k ∈ m.regs ∨ k ∈ x.regs) ∧ m.project L (L.parseFloat k).1 = key := by
  have hp : ∀ v, (New m.Resolution).project L v = m.project L v := fun _ => rfl
  simp only [Histogram.Cancel, foldl_insertKey_mem, foldl_cancelKey_mem,
    foldl_insertKey_project, New_regs, AList.not_mem_empty, false_or, hp]
  constructor
  · rintro (⟨e, he, h⟩ | ⟨e, he, h⟩)
    · exact ⟨e.1, Or.inl ((mem_regs_iff_entry _ _).mpr ⟨e, he, rfl⟩), h⟩
    · exact ⟨e.1, Or.inr ((mem_regs_iff_entry _ _).mpr ⟨e, he, rfl⟩), h⟩
  · rintro ⟨k, hk | hk, h⟩
    · obtain ⟨e, he, rfl⟩ := (mem_regs_iff_entry _ _).mp hk
      exact Or.inl ⟨e, he, h⟩
    · obtain ⟨e, he, rfl⟩ := (mem_regs_iff_entry _ _).mp hk
      exact Or.inr ⟨e, he, h⟩

theorem Combine_Resolution (L : GoLib) (m x : Histogram) :
    (m.Combine L x).Resolution = m.Resolution := by
  simp only [Histogram.Combine, foldl_insertKey, insertAll_Resolution]
  rfl

theorem Cancel_Resolution (L : GoLib) (m x : Histogram) :
    (m.Cancel L x).Resolution = m.Resolution := by
  simp only [Histogram.Cancel, foldl_insertKey, foldl_cancelKey, insertAll_Resolution]
  rfl


/-- Whatever `FromRawHist` returns was built by `Insert` from a fresh histogram. -/
theorem fromRawLoop_eq_insertAll (L : GoLib) (wts : List ℚ) (locs : List F64) (ii : Nat)
    (m B : Histogram) (h : fromRawLoop L wts locs ii m = some B) :
    ∃ l : List (F64 × ℚ), l.map (fun p => p.1) = locs ∧ B = insertAll L m l := by
  induction locs generalizing ii m with
  | nil =>
    simp only [fromRawLoop, Option.some.injEq] at h
    exact ⟨[], rfl, h.symm⟩
  | cons x rest ih =>
    simp only [fromRawLoop] at h
    cases hw : wts[ii]? with
    | none => rw [hw] at h; cases h
    | some w =>
      rw [hw] at h
      obtain ⟨l, hl, hB⟩ := ih (ii + 1) (m.Insert L x w) h
      exact ⟨(x, w) :: l, by simp [hl], hB⟩

theorem Min_mem (m o : Histogram) (key : String) :
    key ∈ (m.Min o).regs ↔ key ∈ m.regs ∧ key ∈ o.regs := by
  rw [← AList.lookup_isSome, ← AList.lookup_isSome, ← AList.lookup_isSome, Min_lookup]
  cases m.regs.lookup key <;> cases o.regs.lookup key <;> simp

theorem Min_Resolution (m o : Histogram) : (m.Min o).Resolution = m.Resolution :=
  foldl_minStep_Resolution o (New m.Resolution) m.regs.entries

/-- C11: `Total()` is the sum of the weights of all registers, `0` for an empty map and
for an absent map; and for every histogram `m`, value `v` and weight `w`, with exact
weights, `m.Insert(v, w).Total() = m.Total() + w`. In the test, `New(2)` after
`Insert(123.3, 23.32)` and `Insert(23456.43, 11)` has total `34.32`. -/
theorem Total_sum_and_Insert (L : GoLib) (m : Histogram) (v : F64) (w : ℚ) (r : Int) :
    m.Total = (m.regs.entries.map (fun e => e.2)).sum
      ∧ (New r).Total = 0
      ∧ (Histogram.mk r none).Total = 0
      ∧ (m.Insert L v w).Total = m.Total + w
      ∧ (((New 2).Insert goLib (f64 "123.3") (2332 / 100)).Insert goLib (f64 "23456.43")
          11).Total = 3432 / 100 := by
  refine ⟨Total_eq_wsum m, rfl, rfl, Insert_Total L m v w, ?_⟩
  rw [Insert_Total, Insert_Total, New_Total]
  norm_num

/-- C14: for every pair of histograms `m` and `x`, whatever their resolutions,
`m.Combine(x)` has the resolution of `m`, and its keys are exactly the projections, at
the resolution of `m`, of the decoded values of the keys of `m` and of `x`. `Combine`
returns a histogram in every case: there is no error to raise. -/
theorem Combine_rebins (L : GoLib) (m x : Histogram) :
    (m.Combine L x).Resolution = m.Resolution
      ∧ ∀ key, key ∈ (m.Combine L x).regs
          ↔ ∃ k, (k ∈ m.regs ∨ k ∈ x.regs) ∧ m.project L (L.parseFloat k).1 = key :=
  ⟨Combine_Resolution L m x, Combine_mem L m x⟩

/-- C16: in a histogram obtained from `New(r)` by a sequence of `Insert` calls, the keys
are exactly the projections at `r` of the inserted values; and the invariant that every
key is a projection at the histogram's own resolution holds for every result of
`Combine`, `Cancel` and `FromRawHist`, and for `m.Min(o)` whenever it holds for `m`. -/
theorem KeysProjected_invariant (L : GoLib) :
    (∀ (r : Int) (l : List (F64 × ℚ)) (key : String),
        key ∈ (insertAll L (New r) l).regs ↔ ∃ p ∈ l, (New r).project L p.1 = key)
      ∧ (∀ (r : Int) (l : List (F64 × ℚ)), KeysProjected L (insertAll L (New r) l))
      ∧ (∀ m x : Histogram, KeysProjected L (m.Combine L x))
      ∧ (∀ m x : Histogram, KeysProjected L (m.Cancel L x))
      ∧ (∀ m o : Histogram, KeysProjected L m → KeysProjected L (m.Min o))
      ∧ (∀ (raw : RawHist) (r : Int) (B : Histogram),
          FromRawHist L raw r = some B → KeysProjected L B) := by
  have hins : ∀ (r : Int) (l : List (F64 × ℚ)) (key : String),
      key ∈ (insertAll L (New r) l).regs ↔ ∃ p ∈ l, (New r).project L p.1 = key := by
    intro r l key
    rw [insertAll_mem]
    simp only [New_regs, AList.not_mem_empty, false_or]
  have hinv : ∀ (r : Int) (l : List (F64 × ℚ)), KeysProjected L (insertAll L (New r) l) := by
    intro r l key hk
    obtain ⟨p, -, hp⟩ := (hins r l key).mp hk
    refine ⟨p.1, ?_⟩
    rw [← hp]
    simp only [Histogram.project, insertAll_Resolution]
  refine ⟨hins, hinv, ?_, ?_, ?_, ?_⟩
  · intro m x key hk
    obtain ⟨k, -, h⟩ := (Combine_mem L m x key).mp hk
    refine ⟨(L.parseFloat k).1, ?_⟩
    rw [← h]
    simp only [Histogram.project, Combine_Resolution]
  · intro m x key hk
    obtain ⟨k, -, h⟩ := (Cancel_mem L m x key).mp hk
    refine ⟨(L.parseFloat k).1, ?_⟩
    rw [← h]
    simp only [Histogram.project, Cancel_Resolution]
  · intro m o hm key hk
    obtain ⟨v, hv⟩ := hm key ((Min_mem m o key).mp hk).1
    refine ⟨v, ?_⟩
    rw [← hv]
    simp only [Histogram.project, Min_Resolution]
  · intro raw r B hB
    obtain ⟨l, -, rfl⟩ := fromRawLoop_eq_insertAll L raw.Weight raw.Location 0 (New r) B hB
    exact hinv r l

/-- Witness for C16: the test's `x` has projected keys, and so has `x.Min(q)`; and the
histogram rebuilt from its interchange form has projected keys. -/
theorem KeysProjected_invariant_witness :
    (KeysProjected goLib xTest ∧ KeysProjected goLib (xTest.Min qTest))
      ∧ KeysProjected goLib (insertAll goLib (New xTest.Resolution)
          ((xTest.ToRawHist goLib).Location.map
            (fun x => (x, xTest.regs.at (xTest.project goLib x))))) :=
  have hx : KeysProjected goLib xTest := by
    intro key hk
    have hk' : key = "2.35e+04" ∨ key = "1.23e+02" := by
      have h1 := hk
      simp only [xTest, Histogram.regs, AList.mem_insert, AList.insert_empty] at h1
      rcases h1 with h1 | h1
      · exact Or.inl h1
      · rw [AList.mem_keys, AList.keys_singleton, List.mem_singleton] at h1
        exact Or.inr h1
    rcases hk' with rfl | rfl
    · exact ⟨f64 "23500", by decide⟩
    · exact ⟨f64 "123", by decide⟩
  ⟨⟨hx, (KeysProjected_invariant goLib).2.2.2.2.1 xTest qTest hx⟩,
    (KeysProjected_invariant goLib).2.2.2.2.2 (xTest.ToRawHist goLib) xTest.Resolution _
      (FromRawHist_ToRawHist_eq goLib xTest xTest.Resolution)⟩

/-- C20: `Min` is commutative on registers: for every pair of histograms `m` and `o`
(weights are exact rationals, so totally ordered), `m.Min(o)` and `o.Min(m)` have the same
key-to-weight map; each takes its resolution from its receiver. -/
theorem Min_comm (m o : Histogram) :
    (∀ key, (m.Min o).regs.lookup key = (o.Min m).regs.lookup key)
      ∧ (m.Min o).Resolution = m.Resolution
      ∧ (o.Min m).Resolution = o.Resolution := by
  refine ⟨?_, Min_Resolution m o, Min_Resolution o m⟩
  intro key
  rw [Min_lookup, Min_lookup]
  cases m.regs.lookup key <;> cases o.regs.lookup key <;> simp [min_comm]

/-! ## Weights of `Combine` and `Cancel` -/

theorem foldl_insertKey_at (L : GoLib) (out : Histogram)
    (l : List (Sigma (fun _ : String => ℚ))) (key : String) :
    (l.foldl (insertKey L) out).regs.at key
      = out.regs.at key
        + ((l.filter (fun e => out.project L (L.parseFloat e.1).1 = key)).map
            (fun e => e.2)).sum := by
  induction l generalizing out with
  | nil => simp
  | cons e l ih =>
    rw [List.foldl_cons, ih]
    simp only [insertKey, Insert_project, Insert_at, List.filter_cons]
    by_cases h : out.project L (L.parseFloat e.1).1 = key
    · simp [h, add_assoc]
    · simp [h]

theorem foldl_cancelKey_at (L : GoLib) (out : Histogram)
    (l : List (Sigma (fun _ : String => ℚ))) (key : String) :
    (l.foldl (cancelKey L) out).regs.at key
      = out.regs.at key
        - ((l.filter (fun e => out.project L (L.parseFloat e.1).1 = key)).map
            (fun e => e.2)).sum := by
  induction l generalizing out with
  | nil => simp
  | cons e l ih =>
    rw [List.foldl_cons, ih]
    simp only [cancelKey, Insert_project, Insert_at, List.filter_cons]
    by_cases h : out.project L (L.parseFloat e.1).1 = key
    · simp [h]; ring
    · simp [h]

theorem empty_at (key : String) : (∅ : Regs).at key = 0 := rfl

/-- The weight `Combine` gives to a key: the contributions of both operands. -/
theorem Combine_at (L : GoLib) (m x : Histogram) (key : String) :
    (m.Combine L x).regs.at key
      = contribution L m.Resolution m key + contribution L m.Resolution x key := by
  have hp : ∀ v, (New m.Resolution).project L v = L.sprintfE m.Resolution v := fun _ => rfl
  simp only [Histogram.Combine, foldl_insertKey_at, foldl_insertKey_project, New_regs,
    empty_at, hp, contribution]
  ring

/-- The weight `Cancel` gives to a key: the contribution of the receiver less that of the
argument. -/
theorem Cancel_at (L : GoLib) (m x : Histogram) (key : String) :
    (m.Cancel L x).regs.at key
      = contribution L m.Resolution m key - contribution L m.Resolution x key := by
  have hp : ∀ v, (New m.Resolution).project L v = L.sprintfE m.Resolution v := fun _ => rfl
  simp only [Histogram.Cancel, foldl_insertKey_at, foldl_cancelKey_at,
    foldl_insertKey_project, New_regs, empty_at, hp, contribution]
  ring

theorem negated_entries (x : Histogram) :
    x.negated.regs.entries = x.regs.entries.map (fun e => ⟨e.1, -e.2⟩) := by
  obtain ⟨res, reg⟩ := x
  cases reg <;> rfl

theorem negated_mem (x : Histogram) (k : String) : k ∈ x.negated.regs ↔ k ∈ x.regs := by
  rw [mem_regs_iff_entry, mem_regs_iff_entry, negated_entries]
  simp only [List.mem_map, exists_exists_and_eq_and]

theorem contribution_negated (L : GoLib) (r : Int) (x : Histogram) (key : String) :
    contribution L r x.negated key = - contribution L r x key := by
  simp only [contribution, negated_entries]
  induction x.regs.entries with
  | nil => simp
  | cons e l ih =>
    simp only [List.map_cons, List.filter_cons]
    by_cases h : L.sprintfE r (L.parseFloat e.1).1 = key
    · simp only [h, decide_True, if_true, List.map_cons, List.sum_cons, ih]; ring
    · simp only [h, decide_False, Bool.false_eq_true, if_false, ih]


/-- In a duplicate-free entry list the weights filed under one key sum to its reading. -/
theorem sum_filter_key (l : List (Sigma (fun _ : String => ℚ))) (nd : l.NodupKeys)
    (key : String) :
    ((l.filter (fun e => e.1 = key)).map (fun e => e.2)).sum = (l.dlookup key).getD 0 := by
  induction l with
  | nil => simp
  | cons e l ih =>
    obtain ⟨k, w⟩ := e
    rw [List.nodupKeys_cons] at nd
    by_cases h : k = key
    · subst h
      have hnone : List.dlookup k l = none := List.dlookup_eq_none.mpr nd.1
      have ih' := ih nd.2
      rw [hnone] at ih'
      simp only [List.filter_cons, decide_True, if_true, List.map_cons, List.sum_cons, ih',
        List.dlookup_cons_eq, Option.getD_some, Option.getD_none, add_zero]
    · have h' : key ≠ k := fun e => h e.symm
      simp only [List.filter_cons, h, decide_False, Bool.false_eq_true, if_false, ih nd.2]
      rw [List.dlookup_cons_ne l ⟨k, w⟩ h']

/-- The contribution of a canonical histogram at its own resolution is its reading. -/
theorem contribution_canonical (L : GoLib) (A : Histogram) (hc : Canonical L A)
    (key : String) : contribution L A.Resolution A key = A.regs.at key := by
  have hfilter : A.regs.entries.filter
      (fun e => L.sprintfE A.Resolution (L.parseFloat e.1).1 = key)
        = A.regs.entries.filter (fun e => e.1 = key) := by
    apply List.filter_congr
    intro e he
    have := (hc e.1 (List.mem_map_of_mem _ he)).2
    simp only [Histogram.project] at this
    rw [this]
  simp only [contribution, hfilter]
  exact sum_filter_key A.regs.entries A.regs.nodupKeys key

/-- C15: for every pair of histograms `m` and `x`, with exact weights, `m.Cancel(x)` has
the same resolution and the same key-to-weight map as `m.Combine(x')`, where `x'` is `x`
with every weight negated. The weight at a key is what `m` contributes to it less what
`x` contributes, so it is negative wherever `x` contributed more than `m`. -/
theorem Cancel_refines_spec (L : GoLib) (m x : Histogram) :
    (m.Cancel L x).Resolution = (m.CancelSpec L x).Resolution
      ∧ (∀ key, (m.Cancel L x).regs.lookup key = (m.CancelSpec L x).regs.lookup key)
      ∧ (∀ key, (m.Cancel L x).regs.at key
          = contribution L m.Resolution m key - contribution L m.Resolution x key)
      ∧ (∀ key, contribution L m.Resolution m key < contribution L m.Resolution x key
          → (m.Cancel L x).regs.at key < 0) := by
  refine ⟨?_, ?_, Cancel_at L m x, ?_⟩
  · rw [Histogram.CancelSpec, Cancel_Resolution, Combine_Resolution]
  · intro key
    apply lookup_eq_of_mem_at
    · rw [Histogram.CancelSpec, Cancel_mem, Combine_mem]
      simp only [negated_mem]
    · rw [Histogram.CancelSpec, Cancel_at, Combine_at, contribution_negated]
      ring
  · intro key h
    rw [Cancel_at]
    linarith

/-- Witness for C15: cancelling the test's `q` from the test's `x` leaves a negative
weight at `"2.35e+04"`, where `q` holds 1000 and `x` holds 11. -/
theorem Cancel_refines_spec_witness :
    contribution goLib xTest.Resolution xTest "2.35e+04"
        < contribution goLib xTest.Resolution qTest "2.35e+04"
      ∧ (xTest.Cancel goLib qTest).regs.at "2.35e+04" < 0 :=
  have hx : Canonical goLib xTest := by
    show ∀ key ∈ xTest.regs.keys, _
    decide
  have hq : Canonical goLib qTest := by
    show ∀ key ∈ qTest.regs.keys, _
    decide
  have h : contribution goLib xTest.Resolution xTest "2.35e+04"
      < contribution goLib xTest.Resolution qTest "2.35e+04" := by
    rw [contribution_canonical goLib xTest hx,
      show xTest.Resolution = qTest.Resolution from rfl,
      contribution_canonical goLib qTest hq]
    simp [xTest, qTest, Histogram.regs, Regs.at, AList.lookup, AList.insert, List.kinsert,
      List.dlookup]
    norm_num
  ⟨h, (Cancel_refines_spec goLib xTest qTest).2.2.2 "2.35e+04" h⟩

/-- C19: for every pair of histograms `A` and `B` of the same resolution whose keys all
decode without error and project back to themselves, with exact weights:
`A.Combine(B).Read(v) = A.Read(v) + B.Read(v)` for every value `v`, and the key set of
`A.Combine(B)` is the union of the key sets of `A` and `B`. -/
theorem Combine_Read (L : GoLib) (A B : Histogram) (hA : Canonical L A) (hB : Canonical L B)
    (hres : A.Resolution = B.Resolution) :
    (∀ v, (A.Combine L B).Read L v = A.Read L v + B.Read L v)
      ∧ (∀ key, key ∈ (A.Combine L B).regs ↔ key ∈ A.regs ∨ key ∈ B.regs) := by
  have hpB : ∀ v, B.project L v = A.project L v := by
    intro v; simp only [Histogram.project, hres]
  constructor
  · intro v
    have hpC : (A.Combine L B).project L v = A.project L v := by
      simp only [Histogram.project, Combine_Resolution]
    simp only [Histogram.Read, hpC, hpB, Combine_at]
    rw [contribution_canonical L A hA, hres, contribution_canonical L B hB]
  · intro key
    rw [Combine_mem]
    constructor
    · rintro ⟨k, hk | hk, h⟩
      · rw [(hA k (AList.mem_keys.mp hk)).2] at h
        exact Or.inl (h ▸ hk)
      · rw [← hpB, (hB k (AList.mem_keys.mp hk)).2] at h
        exact Or.inr (h ▸ hk)
    · rintro (hk | hk)
      · exact ⟨key, Or.inl hk, (hA key (AList.mem_keys.mp hk)).2⟩
      · exact ⟨key, Or.inr hk, by rw [← hpB]; exact (hB key (AList.mem_keys.mp hk)).2⟩

/-- Witness for C19: the test's `x` and `q`. -/
theorem Combine_Read_witness :
    (Canonical goLib xTest ∧ Canonical goLib qTest ∧ xTest.Resolution = qTest.Resolution)
      ∧ (xTest.Combine goLib qTest).Read goLib (f64 "123.3")
          = xTest.Read goLib (f64 "123.3") + qTest.Read goLib (f64 "123.3") :=
  have hx : Canonical goLib xTest := by
    show ∀ key ∈ xTest.regs.keys, _
    decide
  have hq : Canonical goLib qTest := by
    show ∀ key ∈ qTest.regs.keys, _
    decide
  ⟨⟨hx, hq, rfl⟩, (Combine_Read goLib xTest qTest hx hq rfl).1 (f64 "123.3")⟩

/-! ## More on `ToRawHist` and `FromRawHist` -/

theorem ToRawHist_Location_length (L : GoLib) (m : Histogram) :
    (m.ToRawHist L).Location.length = m.regs.entries.length := by
  have hle : (decodedKeys L m.regs).length ≤ m.regs.entries.length :=
    List.length_filterMap_le _ _
  simp only [Histogram.ToRawHist]
  rw [(L.sort_perm _).length_eq, List.length_append, List.length_replicate]
  omega

theorem ToRawHist_Weight_length (L : GoLib) (m : Histogram) :
    (m.ToRawHist L).Weight.length = m.regs.entries.length := by
  rw [ToRawHist_Weight, List.length_map, ToRawHist_Location_length]

/-- The reading of a register at its own key. -/
theorem at_of_mem_entries (r : Regs) (e : Sigma (fun _ : String => ℚ)) (he : e ∈ r.entries) :
    r.at e.1 = e.2 := by
  have : e.2 ∈ r.lookup e.1 := AList.mem_lookup_iff.mpr he
  simp only [Option.mem_def] at this
  simp [Regs.at, this]

/-- C18: for every histogram in which every key decodes without error and projects back
to itself, `ToRawHist` as implemented (each weight looked up by projecting the sorted
location again) returns exactly the `RawHist` of the variant that pairs each decoded
location with the weight stored under its original key. -/
theorem ToRawHist_eq_Direct (L : GoLib) (A : Histogram) (hc : Canonical L A) :
    A.ToRawHist L = A.ToRawHistDirect L := by
  have hloc : (A.ToRawHistDirect L).Location = (A.ToRawHist L).Location := rfl
  have hw : (A.ToRawHistDirect L).Weight
      = (A.ToRawHist L).Location.map (fun xx =>
          match A.regs.entries.find?
            (fun e => (L.parseFloat e.1).2 && decide ((L.parseFloat e.1).1 = xx)) with
          | some e => e.2
          | none => 0) := rfl
  have hwts : (A.ToRawHist L).Weight = (A.ToRawHistDirect L).Weight := by
    rw [hw, ToRawHist_Weight]
    apply List.map_congr_left
    intro xx hxx
    have hmem := (ToRawHist_Location_perm L A hc).mem_iff.mp hxx
    obtain ⟨e0, he0, hx0⟩ := List.mem_map.mp hmem
    cases hf : A.regs.entries.find?
        (fun e => (L.parseFloat e.1).2 && decide ((L.parseFloat e.1).1 = xx)) with
    | none =>
      exfalso
      have := List.find?_eq_none.mp hf e0 he0
      have hok := (hc e0.1 (List.mem_map_of_mem _ he0)).1
      simp [hok, hx0] at this
    | some e =>
      have he : e ∈ A.regs.entries := List.mem_of_find?_eq_some hf
      have hp := List.find?_some hf
      simp only [Bool.and_eq_true, decide_eq_true_eq] at hp
      have hkey : A.project L xx = e.1 := by
        rw [← hp.2]; exact (hc e.1 (List.mem_map_of_mem _ he)).2
      show A.regs.at (A.project L xx) = e.2
      rw [hkey, at_of_mem_entries A.regs e he]
  cases hA : A.ToRawHist L with
  | mk l w =>
    cases hD : A.ToRawHistDirect L with
    | mk l' w' =>
      rw [hA, hD] at hwts
      rw [hA, hD] at hloc
      simp only at hwts hloc
      rw [hwts, hloc]

/-- Witness for C18: the test's histogram `x`. -/
theorem ToRawHist_eq_Direct_witness :
    Canonical goLib xTest ∧ xTest.ToRawHist goLib = xTest.ToRawHistDirect goLib :=
  have h : Canonical goLib xTest := by
    show ∀ key ∈ xTest.regs.keys, _
    decide
  ⟨h, ToRawHist_eq_Direct goLib xTest h⟩


set_option maxRecDepth 100000 in
/-- C12 (the code does not do this): `ToRawHist` never drops a register. For every
histogram both returned sequences have as many elements as there are registers, whether
the keys decode or not: the slot of a key that fails to decode keeps the location `0.0`
and gets the weight read under the key of `0.0`. With the single register `"abc": 5` at
resolution 2 no key decodes, yet the result is `Location = [0]`, `Weight = [0]`; with the
registers `"abc": 5` and `"0.00e+00": 7` the result is `Location = [0, 0]`,
`Weight = [7, 7]`, the weight of the zero bin twice. -/
theorem ToRawHist_keeps_slots (L : GoLib) (m : Histogram) :
    ((m.ToRawHist L).Location.length = m.regs.entries.length
        ∧ (m.ToRawHist L).Weight.length = m.regs.entries.length)
      ∧ ((decodedKeys goLib badKey.regs).length = 0
        ∧ (badKey.ToRawHist goLib).Location = [F64.zero]
        ∧ (badKey.ToRawHist goLib).Weight = [0])
      ∧ ((decodedKeys goLib badAndZero.regs).length = 1
        ∧ (badAndZero.ToRawHist goLib).Location = [F64.zero, F64.zero]
        ∧ (badAndZero.ToRawHist goLib).Weight = [7, 7]) := by
  have hz : ∀ h : Histogram, h.Resolution = 2 → h.project goLib F64.zero = "0.00e+00" := by
    intro h hres
    simp only [Histogram.project, hres]
    decide
  have hl1 : (badKey.ToRawHist goLib).Location = [F64.zero] := by decide
  have hl2 : (badAndZero.ToRawHist goLib).Location = [F64.zero, F64.zero] := by decide
  refine ⟨⟨ToRawHist_Location_length L m, ToRawHist_Weight_length L m⟩,
    ⟨by decide, hl1, ?_⟩, ⟨by decide, hl2, ?_⟩⟩
  · rw [ToRawHist_Weight, hl1]
    simp only [List.map_cons, List.map_nil, hz badKey rfl]
    simp [badKey, Histogram.regs, Regs.at, AList.lookup, AList.insert, List.kinsert,
      List.dlookup]
  · rw [ToRawHist_Weight, hl2]
    simp only [List.map_cons, List.map_nil, hz badAndZero rfl]
    simp [badAndZero, Histogram.regs, Regs.at, AList.lookup, AList.insert, List.kinsert,
      List.kerase, List.dlookup]

/-- The loop of `FromRawHist` completes exactly when the weights reach as far as the
locations. -/
theorem fromRawLoop_isSome (L : GoLib) (wts : List ℚ) (locs : List F64) (ii : Nat)
    (m : Histogram) :
    (fromRawLoop L wts locs ii m).isSome = true ↔ locs = [] ∨ ii + locs.length ≤ wts.length := by
  induction locs generalizing ii m with
  | nil => simp [fromRawLoop]
  | cons x rest ih =>
    simp only [fromRawLoop]
    cases hw : wts[ii]? with
    | none =>
      have hlen : wts.length ≤ ii := List.getElem?_eq_none_iff.mp hw
      simp only [Option.isSome_none, Bool.false_eq_true, false_iff, List.length_cons]
      rintro (h | h)
      · cases h
      · omega
    | some w =>
      have hlt : ii < wts.length := by
        by_contra hcon
        rw [List.getElem?_eq_none_iff.mpr (Nat.le_of_not_lt hcon)] at hw
        cases hw
      simp only [ih, List.length_cons]
      constructor
      · rintro (h | h)
        · subst h; right; simp; omega
        · right; omega
      · rintro (h | h)
        · cases h
        · right; omega

/-- When the weights reach as far as the locations, the loop of `FromRawHist` inserts the
pairs of the two sequences in order. -/
theorem fromRawLoop_zip (L : GoLib) (wts : List ℚ) (locs : List F64) (ii : Nat)
    (m : Histogram) (h : ii + locs.length ≤ wts.length) :
    fromRawLoop L wts locs ii m = some (insertAll L m (locs.zip (wts.drop ii))) := by
  induction locs generalizing ii m with
  | nil => simp [fromRawLoop, insertAll]
  | cons x rest ih =>
    simp only [List.length_cons] at h
    have hlt : ii < wts.length := by omega
    have hget : wts[ii]? = some wts[ii] := List.getElem?_eq_getElem hlt
    have hdrop : wts.drop ii = wts[ii] :: wts.drop (ii + 1) := List.drop_eq_getElem_cons hlt
    simp only [fromRawLoop, hget]
    rw [ih (ii + 1) _ (by omega), hdrop]
    rfl

/-- C13 (as amended): `FromRawHist` completes, for every resolution, exactly on the
`RawHist` values whose `Weight` is at least as long as `Location`; it then returns the
histogram of that resolution obtained by inserting the pairs in order (weights beyond
the locations are ignored). When `Weight` is shorter it stops with an index-out-of-range
fault, and so does `Deserialize` on a record that decodes to such a `RawHist`. -/
theorem FromRawHist_completes_iff (L : GoLib) (x : RawHist) (r : Int) :
    ((FromRawHist L x r).isSome = true ↔ x.Location.length ≤ x.Weight.length)
      ∧ (x.Location.length ≤ x.Weight.length
          → FromRawHist L x r = some (insertAll L (New r) (x.Location.zip x.Weight))
            ∧ (insertAll L (New r) (x.Location.zip x.Weight)).Resolution = r)
      ∧ (x.Weight.length < x.Location.length → FromRawHist L x r = none)
      ∧ (∀ input : L.Bytes, (Deserialize L input r).isSome = true
          ↔ (L.gobDecode input).1.Location.length ≤ (L.gobDecode input).1.Weight.length) := by
  have hiff : ∀ y : RawHist,
      (FromRawHist L y r).isSome = true ↔ y.Location.length ≤ y.Weight.length := by
    intro y
    rw [FromRawHist, fromRawLoop_isSome]
    constructor
    · rintro (h | h)
      · rw [h]; simp
      · omega
    · intro h; right; omega
  refine ⟨hiff x, ?_, ?_, ?_⟩
  · intro h
    refine ⟨?_, insertAll_Resolution _ _ _⟩
    have := fromRawLoop_zip L x.Weight x.Location 0 (New r) (by omega)
    simpa [FromRawHist] using this
  · intro h
    have hn : ¬ ((FromRawHist L x r).isSome = true) := by
      rw [hiff x]; omega
    cases hf : FromRawHist L x r with
    | none => rfl
    | some B => rw [hf] at hn; simp at hn
  · intro input
    rw [← hiff (L.gobDecode input).1]
    simp only [Deserialize]
    cases FromRawHist L (L.gobDecode input).1 r <;> simp

/-- Witness for C13: one location with one weight, and one location with no weight. -/
theorem FromRawHist_completes_iff_witness :
    ((RawHist.mk [F64.zero] [1]).Location.length ≤ (RawHist.mk [F64.zero] [1]).Weight.length
        ∧ FromRawHist goLib (RawHist.mk [F64.zero] [1]) 2
            = some (insertAll goLib (New 2) [(F64.zero, 1)]))
      ∧ ((RawHist.mk [F64.zero] []).Weight.length < (RawHist.mk [F64.zero] []).Location.length
        ∧ FromRawHist goLib (RawHist.mk [F64.zero] []) 2 = none) :=
  ⟨⟨by decide, ((FromRawHist_completes_iff goLib (RawHist.mk [F64.zero] [1]) 2).2.1
      (by decide)).1⟩,
    ⟨by decide, (FromRawHist_completes_iff goLib (RawHist.mk [F64.zero] []) 2).2.2.1
      (by decide)⟩⟩

/-- Counterexample to C13 as stated: a `RawHist` with one location and no weight. At the
first location `FromRawHist` indexes the empty weight slice and stops with an
index-out-of-range fault; `Deserialize` on the record of that `RawHist` does the same,
although the record decodes without error. -/
theorem FromRawHist_completes_counterexample :
    FromRawHist goLib (RawHist.mk [F64.zero] []) 2 = none
      ∧ (goLib.gobDecode (goLib.gobEncode (RawHist.mk [F64.zero] []))).2 = true
      ∧ Deserialize goLib (goLib.gobEncode (RawHist.mk [F64.zero] [])) 2 = none :=
  ⟨rfl, rfl, rfl⟩

/-! ## The order of the locations -/

theorem sortKey_of_not_isNaN (x : F64) (h : x.isNaN = false) :
    -9223372036854775808 < x.sortKey ∧ x.sortKey < 9223372036854775808 := by
  obtain ⟨s, e, f⟩ := x
  have he := e.isLt
  have hf := f.isLt
  simp only [F64.sortKey, h, Bool.false_eq_true, if_false]
  cases s <;> simp <;> omega

/-- The comparison `Less` of `sort.Float64s` is the strict order of the sort keys. -/
theorem less_iff_sortKey (x y : F64) : x.less y = true ↔ x.sortKey < y.sortKey := by
  cases hx : x.isNaN <;> cases hy : y.isNaN
  · simp [F64.less, F64.lt, hx, hy]
  · have := sortKey_of_not_isNaN x hx
    have hy' : y.sortKey = -9223372036854775808 := by simp [F64.sortKey, hy]
    simp [F64.less, F64.lt, hx, hy, hy']
    omega
  · have := sortKey_of_not_isNaN y hy
    have hx' : x.sortKey = -9223372036854775808 := by simp [F64.sortKey, hx]
    simp [F64.less, F64.lt, hx, hy, hx']
    omega
  · have hx' : x.sortKey = -9223372036854775808 := by simp [F64.sortKey, hx]
    have hy' : y.sortKey = -9223372036854775808 := by simp [F64.sortKey, hy]
    simp [F64.less, F64.lt, hx, hy, hx', hy']

/-- Two values with the same sort key are the same value, or two NaNs, or two zeros. -/
theorem sortKey_eq_cases (a b : F64) (h : a.sortKey = b.sortKey) :
    a = b ∨ (a.isNaN = true ∧ b.isNaN = true) ∨ (a.isZero = true ∧ b.isZero = true) := by
  cases ha : a.isNaN <;> cases hb : b.isNaN
  · have h1 := h
    obtain ⟨sa, ea, fa⟩ := a
    obtain ⟨sb, eb, fb⟩ := b
    have hfa := fa.isLt
    have hfb := fb.isLt
    simp only [F64.sortKey, ha, hb, Bool.false_eq_true, if_false] at h1
    cases sa <;> cases sb <;> simp at h1
    · left
      have h2 : ea.val * 4503599627370496 + fa.val = eb.val * 4503599627370496 + fb.val := by
        omega
      have he : ea.val = eb.val := by omega
      have hf : fa.val = fb.val := by omega
      rw [Fin.ext he, Fin.ext hf]
    · right; right
      have he : ea.val = 0 ∧ fa.val = 0 ∧ eb.val = 0 ∧ fb.val = 0 := by omega
      simp [F64.isZero, he]
    · right; right
      have he : ea.val = 0 ∧ fa.val = 0 ∧ eb.val = 0 ∧ fb.val = 0 := by omega
      simp [F64.isZero, he]
    · left
      have h2 : ea.val * 4503599627370496 + fa.val = eb.val * 4503599627370496 + fb.val := by
        omega
      have he : ea.val = eb.val := by omega
      have hf : fa.val = fb.val := by omega
      rw [Fin.ext he, Fin.ext hf]
  · exfalso
    have := sortKey_of_not_isNaN a ha
    have hb' : b.sortKey = -9223372036854775808 := by simp [F64.sortKey, hb]
    omega
  · exfalso
    have := sortKey_of_not_isNaN b hb
    have ha' : a.sortKey = -9223372036854775808 := by simp [F64.sortKey, ha]
    omega
  · exact Or.inr (Or.inl ⟨rfl, rfl⟩)


/-- On the keys of a canonical histogram decoding is injective. -/
theorem parse_injOn_keys (L : GoLib) (A : Histogram) (hc : Canonical L A) :
    ∀ e₁ ∈ A.regs.entries, ∀ e₂ ∈ A.regs.entries,
      (L.parseFloat e₁.1).1 = (L.parseFloat e₂.1).1 → e₁ = e₂ := by
  intro e₁ h₁ e₂ h₂ h
  have k₁ := (hc e₁.1 (List.mem_map_of_mem _ h₁)).2
  have k₂ := (hc e₂.1 (List.mem_map_of_mem _ h₂)).2
  rw [h, k₂] at k₁
  exact A.regs.nodupKeys.eq_of_fst_eq h₂ h₁ k₁ |>.symm

/-- C17 (as amended): for every histogram all of whose keys decode without error and
project back to themselves, `ToRawHist` returns `Location` and `Weight` of equal length
(the number of registers); `Location` is in the ascending order of `sort.Float64s` and has
no duplicates; it is strictly ascending except between two zeros (`-0` and `+0`) or two
NaNs, which the order does not separate; and for every index `i`, `Weight[i]` is the
weight of the register whose key decodes to `Location[i]`. -/
theorem ToRawHist_sorted (L : GoLib) (A : Histogram) (hc : Canonical L A) :
    (A.ToRawHist L).Location.length = A.regs.entries.length
      ∧ (A.ToRawHist L).Weight.length = A.regs.entries.length
      ∧ List.Pairwise (fun a b => F64.less b a = false) (A.ToRawHist L).Location
      ∧ (A.ToRawHist L).Location.Nodup
      ∧ List.Pairwise (fun a b => F64.less a b = true
          ∨ (a.isNaN = true ∧ b.isNaN = true) ∨ (a.isZero = true ∧ b.isZero = true))
          (A.ToRawHist L).Location
      ∧ (∀ (i : Nat) (hi : i < (A.ToRawHist L).Location.length),
          ∃ (key : String) (w : ℚ), A.regs.lookup key = some w
            ∧ L.parseFloat key = ((A.ToRawHist L).Location[i], true)
            ∧ (A.ToRawHist L).Weight[i]? = some w) := by
  have hperm := ToRawHist_Location_perm L A hc
  have hsorted : List.Pairwise (fun a b => F64.sortKey a ≤ F64.sortKey b)
      (A.ToRawHist L).Location := L.sort_sorted _
  have hnodup : (A.ToRawHist L).Location.Nodup := by
    rw [hperm.nodup_iff]
    exact List.Nodup.map_on (parse_injOn_keys L A hc) A.regs.nodupKeys.nodup
  refine ⟨ToRawHist_Location_length L A, ToRawHist_Weight_length L A, ?_, hnodup, ?_, ?_⟩
  · refine hsorted.imp ?_
    intro a b hab
    cases hl : F64.less b a with
    | false => rfl
    | true => exact absurd ((less_iff_sortKey b a).mp hl) (not_lt.mpr hab)
  · refine (hsorted.and hnodup).imp ?_
    intro a b hab
    rcases lt_or_eq_of_le hab.1 with h | h
    · exact Or.inl ((less_iff_sortKey a b).mpr h)
    · rcases sortKey_eq_cases a b h with h1 | h1
      · exact absurd h1 hab.2
      · exact Or.inr h1
  · intro i hi
    have hmem : (A.ToRawHist L).Location[i] ∈ (A.ToRawHist L).Location :=
      List.getElem_mem hi
    obtain ⟨e, he, hx⟩ := List.mem_map.mp (hperm.mem_iff.mp hmem)
    have hk := hc e.1 (List.mem_map_of_mem _ he)
    refine ⟨e.1, e.2, AList.mem_lookup_iff.mpr he, ?_, ?_⟩
    · rw [← hx]
      exact Prod.ext rfl hk.1
    · rw [ToRawHist_Weight, List.getElem?_map, List.getElem?_eq_getElem hi, Option.map_some',
        ← hx, hk.2, at_of_mem_entries A.regs e he]

/-- Witness for C17: the test's histogram `x`. -/
theorem ToRawHist_sorted_witness :
    Canonical goLib xTest
      ∧ (xTest.ToRawHist goLib).Location.length = xTest.regs.entries.length
      ∧ (xTest.ToRawHist goLib).Location.Nodup :=
  have h : Canonical goLib xTest := by
    show ∀ key ∈ xTest.regs.keys, _
    decide
  ⟨h, (ToRawHist_sorted goLib xTest h).1, (ToRawHist_sorted goLib xTest h).2.2.2.1⟩

set_option maxRecDepth 100000 in
/-- Counterexample to C17 as stated, at two histograms all of whose keys decode without
error. After `New(2)`, `Insert(0.0, 1)`, `Insert(-0.0, 2)` the keys are `"0.00e+00"` and
`"-0.00e+00"`, and `Location` holds the two zeros, neither of which is less than the
other: not strictly ascending. With the registers `"1.2e+02": 5` and `"1.20e+02": 7` at
resolution 2, both keys decode to 120: `Location = [120, 120]` has a duplicate, and
`Weight = [7, 7]` gives 7 also for the register that holds 5. -/
theorem ToRawHist_sorted_counterexample :
    ((∀ key ∈ zeroPair.regs.keys, (goLib.parseFloat key).2 = true)
        ∧ zeroPair.regs.keys = ["-0.00e+00", "0.00e+00"]
        ∧ (zeroPair.ToRawHist goLib).Location = [F64.negZero, F64.zero]
        ∧ F64.lt F64.negZero F64.zero = false)
      ∧ ((∀ key ∈ coarsePair.regs.keys, (goLib.parseFloat key).2 = true)
        ∧ (coarsePair.ToRawHist goLib).Location = [f64 "120", f64 "120"]
        ∧ (coarsePair.ToRawHist goLib).Weight = [7, 7]
        ∧ coarsePair.regs.lookup "1.2e+02" = some 5) := by
  have hl : (coarsePair.ToRawHist goLib).Location = [f64 "120", f64 "120"] := by decide
  have hp : coarsePair.project goLib (f64 "120") = "1.20e+02" := by decide
  refine ⟨⟨by decide, by decide, by decide, by decide⟩, ⟨by decide, hl, ?_, rfl⟩⟩
  rw [ToRawHist_Weight, hl]
  simp only [List.map_cons, List.map_nil, hp]
  simp [coarsePair, Histogram.regs, Regs.at, AList.lookup, AList.insert, List.kinsert,
    List.kerase, List.dlookup]

/-! ## Correct rounding pins the digits and the exponent -/

theorem sciDigits_roundsTo (p a b : Nat) (ha : 0 < a) (hb : 0 < b) :
    RoundsTo p ((a : ℚ) / b) (sciDigits p a b).1 (sciDigits p a b).2 := by
  obtain ⟨hk1, hk2⟩ := decExp_spec a b ha hb
  obtain ⟨N, D, hD, hrd, hND⟩ := scaledRound_spec p a b (decExp a b) hb
  obtain ⟨hr1, hr2, -, -⟩ := roundHalfEven_spec N D hD
  obtain ⟨hs1, hs2, -, -⟩ := sciDigits_spec p a b ha hb
  set k := decExp a b with hk
  set n0 := scaledRound p a b k with hn0
  have hu : (0 : ℚ) < (10 : ℚ) ^ (k - p) := by positivity
  have hdist : |(a : ℚ) / b - (n0 : ℚ) * (10 : ℚ) ^ (k - p)|
      = |(N : ℚ) / D - (n0 : ℚ)| * (10 : ℚ) ^ (k - p) := by
    rw [hND, ← abs_of_pos hu, ← abs_mul, abs_of_pos hu]
    congr 1
    field_simp
    ring
  refine ⟨hs1, hs2, k, n0, hk1, hk2, ?_, ?_, ?_⟩
  · rw [hdist, hrd]
    calc |(N : ℚ) / D - (roundHalfEven N D : ℚ)| * (10 : ℚ) ^ (k - p)
        ≤ 1 / 2 * (10 : ℚ) ^ (k - p) := mul_le_mul_of_nonneg_right hr1 (le_of_lt hu)
      _ = (10 : ℚ) ^ (k - p) / 2 := by ring
  · rw [hdist, hrd]
    intro h
    apply hr2
    have : |(N : ℚ) / D - (roundHalfEven N D : ℚ)| * (10 : ℚ) ^ (k - p)
        = 1 / 2 * (10 : ℚ) ^ (k - p) := by rw [h]; ring
    exact mul_right_cancel₀ (ne_of_gt hu) this
  · have hsd : sciDigits p a b = if n0 = 10 ^ (p + 1) then (10 ^ p, k + 1) else (n0, k) := by
      simp only [sciDigits, if_neg (ne_of_gt ha)]
    rw [hsd]
    split_ifs with hc
    · show ((10 ^ p : ℕ) : ℚ) * (10 : ℚ) ^ (k + 1 - p) = (n0 : ℚ) * (10 : ℚ) ^ (k - p)
      rw [hc]; push_cast
      rw [← zpow_natCast, ← zpow_natCast, ← zpow_add₀ (by norm_num : (10 : ℚ) ≠ 0),
        ← zpow_add₀ (by norm_num : (10 : ℚ) ≠ 0)]
      congr 1; push_cast; ring
    · rfl

/-- A multiple of the unit within half a unit of `v` is a nearest multiple of the unit. -/
theorem nearest_multiple (v u : ℚ) (hu : 0 < u) (n0 m : Nat)
    (h : |v - (n0 : ℚ) * u| ≤ u / 2) : |v - (n0 : ℚ) * u| ≤ |v - (m : ℚ) * u| := by
  by_cases hm : m = n0
  · rw [hm]
  · have h1 : (1 : ℚ) ≤ |(m : ℚ) - n0| := by
      rcases Nat.lt_or_gt_of_ne hm with hlt | hgt
      · have : (m : ℚ) + 1 ≤ n0 := by exact_mod_cast hlt
        rw [abs_sub_comm]
        exact le_trans (by linarith) (le_abs_self _)
      · have : (n0 : ℚ) + 1 ≤ m := by exact_mod_cast hgt
        exact le_trans (by linarith) (le_abs_self _)
    have h2 : u ≤ |(m : ℚ) * u - (n0 : ℚ) * u| := by
      rw [← sub_mul, abs_mul, abs_of_pos hu]
      calc u = 1 * u := (one_mul u).symm
        _ ≤ |(m : ℚ) - n0| * u := mul_le_mul_of_nonneg_right h1 (le_of_lt hu)
    have h3 : |(m : ℚ) * u - (n0 : ℚ) * u| ≤ |v - (n0 : ℚ) * u| + |v - (m : ℚ) * u| := by
      have : (m : ℚ) * u - (n0 : ℚ) * u = (v - (n0 : ℚ) * u) - (v - (m : ℚ) * u) := by ring
      rw [this]
      exact abs_sub _ _
    linarith

/-- A number of `r + 1` digits at the exponent `k` lies in the decade of `10 ^ k`. -/
theorem decade_of_digits (r n : Nat) (k : Int) (h1 : 10 ^ r ≤ n) (h2 : n < 10 ^ (r + 1)) :
    (10 : ℚ) ^ k ≤ (n : ℚ) * (10 : ℚ) ^ (k - r)
      ∧ (n : ℚ) * (10 : ℚ) ^ (k - r) < (10 : ℚ) ^ (k + 1) := by
  have hu : (0 : ℚ) < (10 : ℚ) ^ (k - r) := by positivity
  have e1 : (10 : ℚ) ^ k = ((10 ^ r : ℕ) : ℚ) * (10 : ℚ) ^ (k - r) := by
    push_cast
    rw [← zpow_natCast, ← zpow_add₀ (by norm_num : (10 : ℚ) ≠ 0)]
    congr 1; ring
  have e2 : (10 : ℚ) ^ (k + 1) = ((10 ^ (r + 1) : ℕ) : ℚ) * (10 : ℚ) ^ (k - r) := by
    push_cast
    rw [← zpow_natCast, ← zpow_add₀ (by norm_num : (10 : ℚ) ≠ 0)]
    congr 1; push_cast; ring
  rw [e1, e2]
  constructor
  · exact mul_le_mul_of_nonneg_right (by exact_mod_cast h1) (le_of_lt hu)
  · exact mul_lt_mul_of_pos_right (by exact_mod_cast h2) hu

/-- The decade of a positive number is unique. -/
theorem decade_unique (v : ℚ) (K K2 : Int) (h1 : (10 : ℚ) ^ K ≤ v) (h2 : v < (10 : ℚ) ^ (K + 1))
    (h3 : (10 : ℚ) ^ K2 ≤ v) (h4 : v < (10 : ℚ) ^ (K2 + 1)) : K = K2 := by
  have a1 : K < K2 + 1 :=
    (zpow_lt_zpow_iff_right₀ (by norm_num : (1 : ℚ) < 10)).mp (lt_of_le_of_lt h1 h4)
  have a2 : K2 < K + 1 :=
    (zpow_lt_zpow_iff_right₀ (by norm_num : (1 : ℚ) < 10)).mp (lt_of_le_of_lt h3 h2)
  omega

/-- The correctly rounded digits and exponent are unique. -/
theorem RoundsTo_unique (r : Nat) (v : ℚ) (n n2 : Nat) (k k2 : Int)
    (h : RoundsTo r v n k) (h2 : RoundsTo r v n2 k2) : n2 = n ∧ k2 = k := by
  obtain ⟨a1, a2, K, n0, a3, a4, a5, a6, a7⟩ := h
  obtain ⟨b1, b2, K2, m0, b3, b4, b5, b6, b7⟩ := h2
  have hK : K = K2 := decade_unique v K K2 a3 a4 b3 b4
  subst hK
  have hu : (0 : ℚ) < (10 : ℚ) ^ (K - r) := by positivity
  set u := (10 : ℚ) ^ (K - r) with hudef
  -- the two nearest multiples agree
  have hn0 : m0 = n0 := by
    by_contra hne
    have c1 := nearest_multiple v u hu n0 m0 a5
    have c2 := nearest_multiple v u hu m0 n0 b5
    have heq : |v - (n0 : ℚ) * u| = |v - (m0 : ℚ) * u| := le_antisymm c1 c2
    have hsum : |(m0 : ℚ) * u - (n0 : ℚ) * u| ≤ |v - (n0 : ℚ) * u| + |v - (m0 : ℚ) * u| := by
      have : (m0 : ℚ) * u - (n0 : ℚ) * u = (v - (n0 : ℚ) * u) - (v - (m0 : ℚ) * u) := by ring
      rw [this]
      exact abs_sub _ _
    have hd : |(m0 : ℚ) * u - (n0 : ℚ) * u| = |(m0 : ℚ) - n0| * u := by
      rw [← sub_mul, abs_mul, abs_of_pos hu]
    have h1 : (1 : ℚ) ≤ |(m0 : ℚ) - n0| := by
      rcases Nat.lt_or_gt_of_ne hne with hlt | hgt
      · have : (m0 : ℚ) + 1 ≤ n0 := by exact_mod_cast hlt
        rw [abs_sub_comm]
        exact le_trans (by linarith) (le_abs_self _)
      · have : (n0 : ℚ) + 1 ≤ m0 := by exact_mod_cast hgt
        exact le_trans (by linarith) (le_abs_self _)
    have hge : u ≤ |(m0 : ℚ) - n0| * u := by
      calc u = 1 * u := (one_mul u).symm
        _ ≤ |(m0 : ℚ) - n0| * u := mul_le_mul_of_nonneg_right h1 (le_of_lt hu)
    -- both distances are exactly half a unit, and the two multiples are neighbours
    have t1 : |v - (n0 : ℚ) * u| = u / 2 := by linarith
    have t2 : |v - (m0 : ℚ) * u| = u / 2 := by linarith
    have hle1 : |(m0 : ℚ) - n0| * u ≤ 1 * u := by rw [one_mul]; linarith
    have hle : |(m0 : ℚ) - n0| ≤ 1 := le_of_mul_le_mul_right hle1 hu
    have e1 := a6 t1
    have e2 := b6 t2
    have hnb : m0 = n0 + 1 ∨ n0 = m0 + 1 := by
      rcases abs_le.mp hle with ⟨l1, l2⟩
      have l1z : (n0 : ℤ) ≤ m0 + 1 := by
        have : (n0 : ℚ) ≤ (m0 : ℚ) + 1 := by linarith
        exact_mod_cast this
      have l2z : (m0 : ℤ) ≤ n0 + 1 := by
        have : (m0 : ℚ) ≤ (n0 : ℚ) + 1 := by linarith
        exact_mod_cast this
      omega
    rcases hnb with hh | hh
    · rw [hh, Nat.even_add_one] at e2; exact e2 e1
    · rw [hh, Nat.even_add_one] at e1; exact e1 e2
  subst hn0
  have hval : (n2 : ℚ) * (10 : ℚ) ^ (k2 - r) = (n : ℚ) * (10 : ℚ) ^ (k - r) := by
    rw [a7, b7]
  obtain ⟨d1, d2⟩ := decade_of_digits r n k a1 a2
  obtain ⟨d3, d4⟩ := decade_of_digits r n2 k2 b1 b2
  rw [hval] at d3 d4
  have hk : k = k2 := decade_unique _ k k2 d1 d2 d3 d4
  subst hk
  refine ⟨?_, rfl⟩
  have hu2 : (10 : ℚ) ^ (k - r) ≠ 0 := by positivity
  have := mul_right_cancel₀ hu2 hval
  exact_mod_cast this

/-- The correctly rounded number is a nearest one among all numbers of `r + 1` significant
digits, whatever their exponent. -/
theorem RoundsTo_nearest (r : Nat) (v : ℚ) (n : Nat) (k : Int) (h : RoundsTo r v n k)
    (n2 : Nat) (k2 : Int) (h1 : 10 ^ r ≤ n2) (h2 : n2 < 10 ^ (r + 1)) :
    |v - (n : ℚ) * (10 : ℚ) ^ (k - r)| ≤ |v - (n2 : ℚ) * (10 : ℚ) ^ (k2 - r)| := by
  obtain ⟨a1, a2, K, n0, a3, a4, a5, a6, a7⟩ := h
  have hu : (0 : ℚ) < (10 : ℚ) ^ (K - r) := by positivity
  rw [a7]
  rcases le_or_lt K k2 with hk | hk
  · -- a candidate of the same or a higher decade is a multiple of the unit
    have ht : (((k2 - K).toNat : ℕ) : ℤ) = k2 - K := Int.toNat_of_nonneg (by omega)
    have hc : (n2 : ℚ) * (10 : ℚ) ^ (k2 - r)
        = ((n2 * 10 ^ (k2 - K).toNat : ℕ) : ℚ) * (10 : ℚ) ^ (K - r) := by
      push_cast
      rw [mul_assoc, ← zpow_natCast, ← zpow_add₀ (by norm_num : (10 : ℚ) ≠ 0), ht]
      congr 2; ring
    rw [hc]
    exact nearest_multiple v _ hu n0 _ a5
  · -- a candidate of a lower decade lies below `10 ^ K`, itself a multiple of the unit
    obtain ⟨-, d2⟩ := decade_of_digits r n2 k2 h1 h2
    have hstep : (10 : ℚ) ^ (k2 + 1) ≤ (10 : ℚ) ^ K :=
      (zpow_le_zpow_iff_right₀ (by norm_num : (1 : ℚ) < 10)).mpr (by omega)
    have hK : (10 : ℚ) ^ K = ((10 ^ r : ℕ) : ℚ) * (10 : ℚ) ^ (K - r) := by
      push_cast
      rw [← zpow_natCast, ← zpow_add₀ (by norm_num : (10 : ℚ) ≠ 0)]
      congr 1; ring
    have hn := nearest_multiple v _ hu n0 (10 ^ r) a5
    rw [← hK, abs_of_nonneg (by linarith : (0 : ℚ) ≤ v - (10 : ℚ) ^ K)] at hn
    rw [abs_of_nonneg (by linarith : (0 : ℚ) ≤ v - (n2 : ℚ) * (10 : ℚ) ^ (k2 - r))]
    linarith

/-! ## The layout pins the key -/

theorem isDigit_toNat (c : Char) (h : isDigit c = true) : 48 ≤ c.toNat ∧ c.toNat ≤ 57 := by
  simp only [isDigit, Bool.and_eq_true, decide_eq_true_eq] at h
  obtain ⟨h1, h2⟩ := h
  rw [Char.le_def] at h1 h2
  have e1 : ('0' : Char).val.toNat = 48 := rfl
  have e2 : ('9' : Char).val.toNat = 57 := rfl
  have g1 := UInt32.le_def.mp h1
  have g2 := UInt32.le_def.mp h2
  constructor
  · show 48 ≤ c.val.toNat
    rw [← e1]; exact g1
  · show c.val.toNat ≤ 57
    rw [← e2]; exact g2

theorem char_eq_of_toNat (c d : Char) (h : c.toNat = d.toNat) : c = d := by
  apply Char.ext
  apply UInt32.ext
  exact h

theorem decVal_lt (cs : List Char) (h : ∀ c ∈ cs, isDigit c = true) :
    decVal cs < 10 ^ cs.length := by
  induction cs with
  | nil => simp [decVal]
  | cons c cs ih =>
    rw [decVal_cons, List.length_cons, pow_succ]
    have h1 := isDigit_toNat c (h c (List.mem_cons_self _ _))
    have h2 := ih (fun x hx => h x (List.mem_cons_of_mem _ hx))
    have h3 : (c.toNat - 48) * 10 ^ cs.length ≤ 9 * 10 ^ cs.length :=
      Nat.mul_le_mul_right _ (by omega)
    omega

/-- Two digit strings of the same length that spell the same number are equal. -/
theorem decVal_inj (cs ds : List Char) (hl : cs.length = ds.length)
    (hc : ∀ c ∈ cs, isDigit c = true) (hd : ∀ c ∈ ds, isDigit c = true)
    (h : decVal cs = decVal ds) : cs = ds := by
  induction cs generalizing ds with
  | nil =>
    cases ds with
    | nil => rfl
    | cons d ds => simp at hl
  | cons c cs ih =>
    cases ds with
    | nil => simp at hl
    | cons d ds =>
      have hl2 : cs.length = ds.length := by simpa using hl
      rw [decVal_cons, decVal_cons, hl2] at h
      have b1 := decVal_lt cs (fun x hx => hc x (List.mem_cons_of_mem _ hx))
      have b2 := decVal_lt ds (fun x hx => hd x (List.mem_cons_of_mem _ hx))
      rw [hl2] at b1
      have hp : 0 < 10 ^ ds.length := Nat.pow_pos (by norm_num)
      have hq : c.toNat - 48 = d.toNat - 48 := by
        have q1 : ((c.toNat - 48) * 10 ^ ds.length + decVal cs) / 10 ^ ds.length
            = c.toNat - 48 := by
          rw [Nat.add_comm, Nat.add_mul_div_right _ _ hp, Nat.div_eq_of_lt b1, Nat.zero_add]
        have q2 : ((d.toNat - 48) * 10 ^ ds.length + decVal ds) / 10 ^ ds.length
            = d.toNat - 48 := by
          rw [Nat.add_comm, Nat.add_mul_div_right _ _ hp, Nat.div_eq_of_lt b2, Nat.zero_add]
        rw [← q1, ← q2, h]
      have hv : decVal cs = decVal ds := by
        rw [hq] at h; omega
      have c1 := isDigit_toNat c (hc c (List.mem_cons_self _ _))
      have d1 := isDigit_toNat d (hd d (List.mem_cons_self _ _))
      have hcd : c = d := char_eq_of_toNat c d (by omega)
      rw [hcd, ih ds hl2 (fun x hx => hc x (List.mem_cons_of_mem _ hx))
        (fun x hx => hd x (List.mem_cons_of_mem _ hx)) hv]

/-- At most one string has the layout of given sign, digits and exponent. -/
theorem SciLayout_unique (neg : Bool) (r n : Nat) (k : Int) (s t : String)
    (hs : SciLayout neg r n k s) (ht : SciLayout neg r n k t) : t = s := by
  obtain ⟨l1, f1, e1, rfl, a1, a2, a3, a4, a5, a6, a7, a8⟩ := hs
  obtain ⟨l2, f2, e2, rfl, b1, b2, b3, b4, b5, b6, b7, b8⟩ := ht
  have hlf : l2 :: f2 = l1 :: f1 := by
    apply decVal_inj
    · simp [a2, b2]
    · intro c hc
      rcases List.mem_cons.mp hc with h | h
      · rw [h]; exact b1
      · exact b3 c h
    · intro c hc
      rcases List.mem_cons.mp hc with h | h
      · rw [h]; exact a1
      · exact a3 c h
    · rw [a7, b7]
  have hlen : e2.length = e1.length := by
    have u1 := decVal_lt e1 a6
    have u2 := decVal_lt e2 b6
    rw [a8] at u1
    rw [b8] at u2
    by_contra hne
    rcases Nat.lt_or_gt_of_ne hne with hlt | hgt
    · have h3 := a5 (by omega)
      have : 10 ^ e2.length ≤ 10 ^ (e1.length - 1) :=
        Nat.pow_le_pow_right (by norm_num) (by omega)
      omega
    · have h3 := b5 (by omega)
      have : 10 ^ e1.length ≤ 10 ^ (e2.length - 1) :=
        Nat.pow_le_pow_right (by norm_num) (by omega)
      omega
  have he : e2 = e1 := decVal_inj e2 e1 hlen b6 a6 (by rw [a8, b8])
  injection hlf with h1 h2
  rw [h1, h2, he]

/-- The text of `%e` has the layout of its sign, digits and exponent. -/
theorem sciChars_SciLayout (neg : Bool) (r n : Nat) (k : Int) (hn : n < 10 ^ (r + 1)) :
    SciLayout neg r n k (String.mk (sciChars neg r n k)) := by
  refine ⟨digitChar (n / 10 ^ r), lastDigits r n [],
    lastDigits (max 2 (decLen k.natAbs)) k.natAbs [], ?_, (digitChar_spec _).1,
    lastDigits_length _ _, lastDigits_isDigit _ _, ?_, ?_, lastDigits_isDigit _ _,
    decVal_lead_frac r n hn, decVal_expDigits _⟩
  · rw [sciChars_layout]
  · rw [lastDigits_length]; exact le_max_left _ _
  · rw [lastDigits_length]
    intro h
    have hd : max 2 (decLen k.natAbs) = decLen k.natAbs := by omega
    rw [hd] at h ⊢
    have hpos : 0 < k.natAbs := by
      rcases Nat.eq_zero_or_pos k.natAbs with h0 | h0
      · rw [h0] at h
        have : decLen 0 = 1 := rfl
        omega
      · exact h0
    exact (decLen_spec k.natAbs hpos).1

/-! ## The key of a finite value -/

set_option maxRecDepth 100000 in
/-- C8 (as amended): for every resolution `0 ≤ r ≤ 10000009` and every finite value `x`,
`project(r, x)` is `x` in scientific notation: an optional minus sign, one leading digit,
a point followed by exactly `r` digits when `r > 0`, the letter `e`, a sign and at least
two exponent digits (`SciLayout`), and it is the only string of that layout for its digits
`n` and exponent `k`. For a zero, `n = 0` and `k = 0`. Otherwise `n * 10 ^ (k - r)` is
`|x|` correctly rounded to `r + 1` significant digits (`RoundsTo`: nearest, ties to even):
no other digits or exponent are a correct rounding of `|x|`, and no number of `r + 1`
significant digits, of whatever exponent, is nearer to `|x|`. So every finite value of the
same sign that rounds to the same digits and exponent gets the identical key. E.g.
`project(2, 345.234212312) = "3.45e+02"` and `project(5, 345.234212312) = "3.45234e+02"`. -/
theorem project_format (r : Nat) (hr : r ≤ 10000009) (x : F64) (hx : x.isFinite = true) :
    (∃ (n : Nat) (k : Int),
      SciLayout x.sign r n k ((New (r : Int)).project goLib x)
        ∧ (∀ s, SciLayout x.sign r n k s → s = (New (r : Int)).project goLib x)
        ∧ (x.num = 0 → n = 0 ∧ k = 0
            ∧ ∀ y : F64, y.isFinite = true → y.sign = x.sign → y.num = 0
                → (New (r : Int)).project goLib y = (New (r : Int)).project goLib x)
        ∧ (x.num ≠ 0 → RoundsTo r x.abs n k
            ∧ (∀ (n2 : Nat) (k2 : Int), RoundsTo r x.abs n2 k2 → n2 = n ∧ k2 = k)
            ∧ (∀ (n2 : Nat) (k2 : Int), 10 ^ r ≤ n2 → n2 < 10 ^ (r + 1)
                → |x.abs - (n : ℚ) * (10 : ℚ) ^ (k - r)|
                    ≤ |x.abs - (n2 : ℚ) * (10 : ℚ) ^ (k2 - r)|)
            ∧ (∀ y : F64, y.isFinite = true → y.sign = x.sign → RoundsTo r y.abs n k
                → (New (r : Int)).project goLib y = (New (r : Int)).project goLib x)))
      ∧ (New 2).project goLib (f64 "345.234212312") = "3.45e+02"
      ∧ (New 5).project goLib (f64 "345.234212312") = "3.45234e+02" := by
  have hkey : ∀ z : F64, z.isFinite = true → (New (r : Int)).project goLib z
      = String.mk (sciChars z.sign r (sciDigits r z.num z.den).1 (sciDigits r z.num z.den).2) := by
    intro z hz
    show sprintfE (r : Int) z = _
    rw [sprintfE_inRange r hr, formatE_finite r z hz]
  have hlt : (sciDigits r x.num x.den).1 < 10 ^ (r + 1) := by
    rcases Nat.eq_zero_or_pos x.num with h0 | h0
    · simp only [sciDigits, h0, if_true]; positivity
    · exact (sciDigits_spec r x.num x.den h0 x.den_pos).2.1
  have hlay := sciChars_SciLayout x.sign r (sciDigits r x.num x.den).1
    (sciDigits r x.num x.den).2 hlt
  refine ⟨⟨(sciDigits r x.num x.den).1, (sciDigits r x.num x.den).2, ?_, ?_, ?_, ?_⟩,
    by decide, by decide⟩
  · rw [hkey x hx]; exact hlay
  · intro s hs
    rw [hkey x hx]
    exact SciLayout_unique _ _ _ _ _ s hlay hs
  · intro h0
    refine ⟨by simp only [sciDigits, h0, if_true], by simp only [sciDigits, h0, if_true], ?_⟩
    intro y hy hsign hy0
    rw [hkey x hx, hkey y hy, hsign]
    simp only [sciDigits, h0, hy0, if_true]
  · intro h0
    have hrt := sciDigits_roundsTo r x.num x.den (Nat.pos_of_ne_zero h0) x.den_pos
    refine ⟨hrt, ?_, ?_, ?_⟩
    · intro n2 k2 h2
      exact RoundsTo_unique r _ _ n2 _ k2 hrt h2
    · intro n2 k2 h1 h2
      exact RoundsTo_nearest r _ _ _ hrt n2 k2 h1 h2
    · intro y hy hsign hyr
      have hy0 : y.num ≠ 0 := by
        intro hz
        obtain ⟨-, -, K, n0, hK, -⟩ := hyr
        have hpos : (0 : ℚ) < (10 : ℚ) ^ K := by positivity
        have : y.abs = 0 := by simp [F64.abs, hz]
        rw [this] at hK
        linarith
      have hyt := sciDigits_roundsTo r y.num y.den (Nat.pos_of_ne_zero hy0) y.den_pos
      obtain ⟨e1, e2⟩ := RoundsTo_unique r _ _ _ _ _ hyr hyt
      rw [hkey x hx, hkey y hy, hsign, e1, e2]

/-- Witness for C8: the test's value at resolution 2. -/
theorem project_format_witness :
    (2 ≤ 10000009 ∧ (f64 "345.234212312").isFinite = true)
      ∧ (New 2).project goLib (f64 "345.234212312") = "3.45e+02" :=
  ⟨⟨by decide, by decide⟩,
    (project_format 2 (by decide) (f64 "345.234212312") (by decide)).2.1⟩

/-! ## Serialising a histogram twice -/

/-- Two sorted rearrangements of the same locations have the same sequence of sort keys. -/
theorem sorted_perm_sortKey (l₁ l₂ : List F64) (hp : List.Perm l₁ l₂)
    (h₁ : List.Sorted (fun a b => F64.sortKey a ≤ F64.sortKey b) l₁)
    (h₂ : List.Sorted (fun a b => F64.sortKey a ≤ F64.sortKey b) l₂) :
    l₁.map F64.sortKey = l₂.map F64.sortKey := by
  have s₁ : List.Sorted (fun a b : Int => a ≤ b) (l₁.map F64.sortKey) := List.pairwise_map.mpr h₁
  have s₂ : List.Sorted (fun a b : Int => a ≤ b) (l₂.map F64.sortKey) := List.pairwise_map.mpr h₂
  exact List.eq_of_perm_of_sorted (hp.map _) s₁ s₂

/-- Lists with the same sequence of sort keys agree position by position, up to the values
the order does not separate. -/
theorem forall₂_of_sortKey_eq (l₁ l₂ : List F64) (h : l₁.map F64.sortKey = l₂.map F64.sortKey) :
    List.Forall₂ (fun b a => b = a ∨ (b.isNaN = true ∧ a.isNaN = true)
      ∨ (b.isZero = true ∧ a.isZero = true)) l₁ l₂ := by
  induction l₁ generalizing l₂ with
  | nil =>
    cases l₂ with
    | nil => exact List.Forall₂.nil
    | cons a l₂ => simp at h
  | cons b l₁ ih =>
    cases l₂ with
    | nil => simp at h
    | cons a l₂ =>
      simp only [List.map_cons, List.cons.injEq] at h
      exact List.Forall₂.cons (sortKey_eq_cases b a h.1) (ih l₂ h.2)

/-- Lists that agree position by position up to such values, where no two distinct members
of the second are such values, are equal. -/
theorem eq_of_forall₂_separated (l₁ l₂ : List F64)
    (h : List.Forall₂ (fun b a => b = a ∨ (b.isNaN = true ∧ a.isNaN = true)
      ∨ (b.isZero = true ∧ a.isZero = true)) l₁ l₂)
    (hsep : ∀ b ∈ l₁, ∀ a ∈ l₂, (b.isNaN = true ∧ a.isNaN = true)
      ∨ (b.isZero = true ∧ a.isZero = true) → b = a) : l₁ = l₂ := by
  induction l₁ generalizing l₂ with
  | nil =>
    cases l₂ with
    | nil => rfl
    | cons a l₂ => cases h
  | cons b l₁ ih =>
    cases l₂ with
    | nil => cases h
    | cons a l₂ =>
      obtain ⟨hab, ht⟩ := List.forall₂_cons.mp h
      have e : b = a := by
        rcases hab with h1 | h1
        · exact h1
        · exact hsep b (List.mem_cons_self _ _) a (List.mem_cons_self _ _) h1
      rw [e, ih l₂ ht
        (fun x hx y hy => hsep x (List.mem_cons_of_mem _ hx) y (List.mem_cons_of_mem _ hy))]

/-- Two histograms with the same resolution and the same key-to-weight map, the keys
canonical: the locations of the one are a rearrangement of the locations of the other,
and weights are read back alike. -/
theorem ToRawHist_Location_congr (L : GoLib) (A B : Histogram) (hA : Canonical L A)
    (hres : B.Resolution = A.Resolution) (hlk : ∀ key, B.regs.lookup key = A.regs.lookup key) :
    List.Perm (B.ToRawHist L).Location (A.ToRawHist L).Location
      ∧ ∀ xx, B.regs.at (B.project L xx) = A.regs.at (A.project L xx) := by
  have hproj : ∀ x, B.project L x = A.project L x := by
    intro x; simp only [Histogram.project, hres]
  have hkeys : ∀ key, key ∈ B.regs.keys ↔ key ∈ A.regs.keys := by
    intro key
    rw [← AList.mem_keys, ← AList.mem_keys, ← AList.lookup_isSome, ← AList.lookup_isSome, hlk]
  have hB : Canonical L B := by
    intro key hk
    rw [hproj]
    exact hA key ((hkeys key).mp hk)
  have hg : ∀ xx, B.regs.at (B.project L xx) = A.regs.at (A.project L xx) := by
    intro xx
    show (B.regs.lookup (B.project L xx)).getD 0 = (A.regs.lookup (A.project L xx)).getD 0
    rw [hlk, hproj]
  have hent : List.Perm B.regs.entries A.regs.entries := by
    apply List.lookup_ext B.regs.nodupKeys A.regs.nodupKeys
    intro x y
    have := hlk x
    simp only [AList.lookup] at this
    rw [this]
  exact ⟨((ToRawHist_Location_perm L B hB).trans (hent.map _)).trans
    (ToRawHist_Location_perm L A hA).symm, hg⟩

theorem RawHist_ext (x y : RawHist) (h₁ : x.Location = y.Location) (h₂ : x.Weight = y.Weight) :
    x = y := by
  cases x; cases y
  simp only at h₁ h₂
  rw [h₁, h₂]

/-- C6 (as amended): for every histogram `A` each of whose keys decodes without error and
projects back to itself at the resolution of `A`, and with `gob` an exact encoding,
`Deserialize(A.Serialize(), A.Resolution)` returns no error and a histogram `B` with the
resolution of `A` and a non-nil map that holds exactly the key-to-weight pairs of `A`.
Serialising `B` again encodes the same (location, weight) pairs as `A.Serialize()`, the
locations of both in the ascending order of `sort.Float64s`; position by position the two
location sequences hold the same value, or two values that the order does not separate
(two zeros, `-0` and `+0`, or two NaNs). When no two distinct locations of `A` are such
values, the bytes are the same: `B.Serialize() = A.Serialize()`. -/
theorem Serialize_roundtrip (L : GoLib) (A : Histogram) (hc : Canonical L A) :
    ∃ B, Deserialize L (A.Serialize L) A.Resolution = some (B, true)
      ∧ B.Resolution = A.Resolution
      ∧ B.Registers.isSome = true
      ∧ (∀ key, B.regs.lookup key = A.regs.lookup key)
      ∧ List.Perm ((B.ToRawHist L).Location.zip (B.ToRawHist L).Weight)
          ((A.ToRawHist L).Location.zip (A.ToRawHist L).Weight)
      ∧ List.Pairwise (fun a b => F64.less b a = false) (A.ToRawHist L).Location
      ∧ List.Pairwise (fun a b => F64.less b a = false) (B.ToRawHist L).Location
      ∧ List.Forall₂ (fun b a => b = a ∨ (b.isNaN = true ∧ a.isNaN = true)
          ∨ (b.isZero = true ∧ a.isZero = true))
          (B.ToRawHist L).Location (A.ToRawHist L).Location
      ∧ ((∀ a ∈ (A.ToRawHist L).Location, ∀ b ∈ (A.ToRawHist L).Location,
            (a.isNaN = true ∧ b.isNaN = true) ∨ (a.isZero = true ∧ b.isZero = true) → a = b)
          → B.ToRawHist L = A.ToRawHist L ∧ B.Serialize L = A.Serialize L) := by
  obtain ⟨B, hB, hres, hsome, hlk⟩ := FromRawHist_ToRawHist L A hc
  obtain ⟨hperm, hg⟩ := ToRawHist_Location_congr L A B hc hres hlk
  have hsA : List.Sorted (fun a b => F64.sortKey a ≤ F64.sortKey b) (A.ToRawHist L).Location :=
    L.sort_sorted _
  have hsB : List.Sorted (fun a b => F64.sortKey a ≤ F64.sortKey b) (B.ToRawHist L).Location :=
    L.sort_sorted _
  have hless : ∀ l : List F64, List.Sorted (fun a b => F64.sortKey a ≤ F64.sortKey b) l
      → List.Pairwise (fun a b => F64.less b a = false) l := by
    intro l hl
    refine List.Pairwise.imp ?_ hl
    intro a b hab
    cases hlt : F64.less b a with
    | false => rfl
    | true => exact absurd ((less_iff_sortKey b a).mp hlt) (not_lt.mpr hab)
  have hpos := forall₂_of_sortKey_eq _ _ (sorted_perm_sortKey _ _ hperm hsB hsA)
  refine ⟨B, ?_, hres, hsome, hlk, ToRawHist_pairs_perm L A B hc hres hlk, hless _ hsA,
    hless _ hsB, hpos, ?_⟩
  · simp only [Deserialize, Histogram.Serialize, L.gob_roundtrip, hB]
  · intro hsep
    have hloc : (B.ToRawHist L).Location = (A.ToRawHist L).Location := by
      apply eq_of_forall₂_separated _ _ hpos
      intro b hb a ha hba
      exact hsep b (hperm.mem_iff.mp hb) a ha hba
    have hraw : B.ToRawHist L = A.ToRawHist L := by
      apply RawHist_ext _ _ hloc
      rw [ToRawHist_Weight, ToRawHist_Weight, hloc]
      exact List.map_congr_left (fun x _ => hg x)
    exact ⟨hraw, by simp only [Histogram.Serialize, hraw]⟩

set_option maxRecDepth 100000 in
/-- Witness for C6: the test's histogram `x`, whose two locations are apart. -/
theorem Serialize_roundtrip_witness :
    (Canonical goLib xTest
      ∧ ∀ a ∈ (xTest.ToRawHist goLib).Location, ∀ b ∈ (xTest.ToRawHist goLib).Location,
          (a.isNaN = true ∧ b.isNaN = true) ∨ (a.isZero = true ∧ b.isZero = true) → a = b)
      ∧ ∃ B, Deserialize goLib (xTest.Serialize goLib) xTest.Resolution = some (B, true)
          ∧ (∀ key, B.regs.lookup key = xTest.regs.lookup key)
          ∧ B.Serialize goLib = xTest.Serialize goLib :=
  have h : Canonical goLib xTest := by
    show ∀ key ∈ xTest.regs.keys, _
    decide
  have hsep : ∀ a ∈ (xTest.ToRawHist goLib).Location, ∀ b ∈ (xTest.ToRawHist goLib).Location,
      (a.isNaN = true ∧ b.isNaN = true) ∨ (a.isZero = true ∧ b.isZero = true) → a = b := by
    decide
  match Serialize_roundtrip goLib xTest h with
  | ⟨B, h1, _, _, h4, _, _, _, _, h9⟩ => ⟨⟨h, hsep⟩, B, h1, h4, (h9 hsep).2⟩

set_option maxRecDepth 100000 in
/-- Counterexample to C6 as stated, at two histograms of resolution 2. With the single
register `"abc": 5` the key does not decode, its slot keeps the location `0.0`, and
`Deserialize(Serialize())` returns, without error, a histogram that has the key
`"0.00e+00"` and not the key `"abc"`. After `New(2)`, `Insert(0.0, 1)`, `Insert(-0.0, 2)`
the keys `"0.00e+00"` and `"-0.00e+00"` decode and project back to themselves, the sort
leaves the two zeros in the order in which `range` visited them, and (visiting the later
insertion first each time) the first serialisation has the locations `[-0, 0]` and the
second one `[0, -0]`: the bytes differ. -/
theorem Serialize_roundtrip_counterexample :
    (∃ B, Deserialize goLib (badKey.Serialize goLib) badKey.Resolution = some (B, true)
      ∧ B.regs.lookup "abc" = none
      ∧ "0.00e+00" ∈ B.regs
      ∧ badKey.regs.lookup "abc" = some 5)
    ∧ (Canonical goLib zeroPair
      ∧ ∃ B, Deserialize goLib (zeroPair.Serialize goLib) zeroPair.Resolution = some (B, true)
          ∧ (zeroPair.ToRawHist goLib).Location = [F64.negZero, F64.zero]
          ∧ (B.ToRawHist goLib).Location = [F64.zero, F64.negZero]
          ∧ B.Serialize goLib ≠ zeroPair.Serialize goLib) := by
  constructor
  · have hB := FromRawHist_ToRawHist_eq goLib badKey badKey.Resolution
    have hloc : (badKey.ToRawHist goLib).Location = [F64.zero] := by decide
    have hne : (New badKey.Resolution).project goLib F64.zero ≠ "abc" := by decide
    have heq : (New badKey.Resolution).project goLib F64.zero = "0.00e+00" := by decide
    refine ⟨insertAll goLib (New badKey.Resolution)
      ((badKey.ToRawHist goLib).Location.map
        (fun x => (x, badKey.regs.at (badKey.project goLib x)))), ?_, ?_, ?_, rfl⟩
    · simp only [Deserialize, Histogram.Serialize, goLib.gob_roundtrip, hB]
    · rw [AList.lookup_eq_none, insertAll_mem, hloc]
      simpa [New_regs] using hne
    · rw [insertAll_mem, hloc]
      simpa [New_regs] using heq
  · have hB := FromRawHist_ToRawHist_eq goLib zeroPair zeroPair.Resolution
    have hlocA : (zeroPair.ToRawHist goLib).Location = [F64.negZero, F64.zero] := by decide
    have hlocB : ((insertAll goLib (New zeroPair.Resolution)
        ((zeroPair.ToRawHist goLib).Location.map
          (fun x => (x, zeroPair.regs.at (zeroPair.project goLib x))))).ToRawHist goLib).Location
        = [F64.zero, F64.negZero] := by
      rw [hlocA]
      decide
    refine ⟨by show ∀ key ∈ zeroPair.regs.keys, _; decide, _, ?_, hlocA, hlocB, ?_⟩
    · simp only [Deserialize, Histogram.Serialize, goLib.gob_roundtrip, hB]
    · intro h
      have h2 : ((insertAll goLib (New zeroPair.Resolution)
          ((zeroPair.ToRawHist goLib).Location.map
            (fun x => (x, zeroPair.regs.at (zeroPair.project goLib x))))).ToRawHist
              goLib).Location = (zeroPair.ToRawHist goLib).Location :=
        congrArg RawHist.Location h
      rw [hlocB, hlocA] at h2
      exact absurd h2 (by decide)

/-! ## `Min` against the same and against a disjoint histogram -/

/-- Against itself, `Min` keeps every register. -/
theorem Min_self_lookup (A : Histogram) (key : String) :
    (A.Min A).regs.lookup key = A.regs.lookup key := by
  rw [Min_lookup]
  cases A.regs.lookup key <;> simp

/-- Against a histogram with no key in common, `Min` returns no register. -/
theorem Min_disjoint_entries (A B : Histogram) (hdisj : List.Disjoint A.regs.keys B.regs.keys) :
    (A.Min B).regs.entries = [] := by
  have hk : (A.Min B).regs.keys = [] := by
    apply List.eq_nil_iff_forall_not_mem.mpr
    intro key hkey
    rw [← AList.mem_keys, Min_mem] at hkey
    exact hdisj (AList.mem_keys.mp hkey.1) (AList.mem_keys.mp hkey.2)
  have : (A.Min B).regs.entries.map Sigma.fst = [] := hk
  exact List.map_eq_nil_iff.mp this

set_option maxRecDepth 100000 in
/-- The three roundings met when `1`, `1e16` and `-1e16` are added up in `float64`. -/
theorem ofRat_steps :
    (F64.ofRat 1).toRat = 1
      ∧ (F64.ofRat 10000000000000001).toRat = 10000000000000000
      ∧ (F64.ofRat 0).toRat = 0
      ∧ (F64.ofRat (-10000000000000000)).toRat = -10000000000000000 := by
  have r1 : F64.ofRat 1 = ⟨false, 1023, 0⟩ := by
    simp only [F64.ofRat, Rat.num_one, Rat.den_one]
    norm_num
    decide
  have r2 : F64.ofRat 10000000000000001 = ⟨false, 1076, 496400372629504⟩ := by
    simp only [F64.ofRat, Rat.num_ofNat, Rat.den_ofNat]
    norm_num
    decide
  have r3 : F64.ofRat 0 = ⟨false, 0, 0⟩ := by
    simp only [F64.ofRat, Rat.num_zero, Rat.den_zero]
    norm_num
    decide
  have r4 : F64.ofRat (-10000000000000000) = ⟨true, 1076, 496400372629504⟩ := by
    simp only [F64.ofRat, Rat.num_neg_eq_neg_num, Rat.den_neg_eq_den, Rat.num_ofNat,
      Rat.den_ofNat]
    norm_num
    decide
  have n1 : (⟨false, 1023, 0⟩ : F64).num = 4503599627370496 := by decide
  have d1 : (⟨false, 1023, 0⟩ : F64).den = 4503599627370496 := by decide
  have n2 : (⟨false, 1076, 496400372629504⟩ : F64).num = 10000000000000000 := by decide
  have d2 : (⟨false, 1076, 496400372629504⟩ : F64).den = 1 := by decide
  have n3 : (⟨false, 0, 0⟩ : F64).num = 0 := by decide
  have n4 : (⟨true, 1076, 496400372629504⟩ : F64).num = 10000000000000000 := by decide
  have d4 : (⟨true, 1076, 496400372629504⟩ : F64).den = 1 := by decide
  refine ⟨?_, ?_, ?_, ?_⟩
  · rw [r1]; simp only [F64.toRat, F64.abs, n1, d1]; norm_num
  · rw [r2]; simp only [F64.toRat, F64.abs, n2, d2]; norm_num
  · rw [r3]; simp only [F64.toRat, F64.abs, n3]; norm_num
  · rw [r4]; simp only [F64.toRat, F64.abs, n4, d4]; norm_num

set_option maxRecDepth 100000 in
/-- The histogram `cancelTriple` is what three calls of `Insert` build. -/
theorem cancelTriple_reached :
    (((New 2).Insert goLib (f64 "3") (-10000000000000000)).Insert goLib (f64 "2")
      10000000000000000).Insert goLib (f64 "1") 1 = cancelTriple := by
  have p1 : ∀ m : Histogram, m.Resolution = 2 → m.project goLib (f64 "3") = "3.00e+00" := by
    intro m h
    show sprintfE m.Resolution (f64 "3") = _
    rw [h]; decide
  have p2 : ∀ m : Histogram, m.Resolution = 2 → m.project goLib (f64 "2") = "2.00e+00" := by
    intro m h
    show sprintfE m.Resolution (f64 "2") = _
    rw [h]; decide
  have p3 : ∀ m : Histogram, m.Resolution = 2 → m.project goLib (f64 "1") = "1.00e+00" := by
    intro m h
    show sprintfE m.Resolution (f64 "1") = _
    rw [h]; decide
  simp [Histogram.Insert, New, cancelTriple, p1, p2, p3, Regs.at, AList.lookup, AList.insert,
    List.kinsert, List.kerase, List.dlookup, AList.ext_iff]

/-- The order in which the model visits the registers of `cancelTriple`. -/
theorem cancelTriple_entries :
    cancelTriple.regs.entries
      = [⟨"1.00e+00", 1⟩, ⟨"2.00e+00", 10000000000000000⟩, ⟨"3.00e+00", -10000000000000000⟩] := by
  simp [cancelTriple, Histogram.regs, AList.insert, List.kinsert, List.kerase, AList.entries]

/-- The registers of `cancelTriple.Min(cancelTriple)`, inserted in the order above and
visited last insertion first. -/
theorem cancelTriple_Min_entries :
    (cancelTriple.Min cancelTriple).regs.entries
      = [⟨"3.00e+00", -10000000000000000⟩, ⟨"2.00e+00", 10000000000000000⟩, ⟨"1.00e+00", 1⟩] := by
  simp [Histogram.Min, minStep, New, cancelTriple, Histogram.regs, AList.insert, AList.lookup,
    List.kinsert, List.kerase, List.dlookup, AList.entries]

/-- The two `float64` totals: `(1 + 1e16) - 1e16 = 0` and `(-1e16 + 1e16) + 1 = 1`. -/
theorem TotalFloat_cancelTriple :
    cancelTriple.TotalFloat = 0 ∧ (cancelTriple.Min cancelTriple).TotalFloat = 1 := by
  obtain ⟨s1, s2, s3, s4⟩ := ofRat_steps
  constructor
  · simp only [Histogram.TotalFloat, cancelTriple_entries, List.foldl_cons, List.foldl_nil]
    rw [zero_add, s1, show (1 : ℚ) + 10000000000000000 = 10000000000000001 by norm_num, s2,
      show (10000000000000000 : ℚ) + -10000000000000000 = 0 by norm_num, s3]
  · simp only [Histogram.TotalFloat, cancelTriple_Min_entries, List.foldl_cons, List.foldl_nil]
    rw [zero_add, s4, show (-10000000000000000 : ℚ) + 10000000000000000 = 0 by norm_num, s3,
      zero_add, s1]

/-- C4 (as amended): for every histogram `A`, `A.Min(A)` has the resolution of `A` and
exactly the registers of `A` (the same key-to-weight pairs, in an order of its own), so
with exact weight arithmetic `A.Min(A).Total()` equals `A.Total()`; and for every
histogram `B` that shares no register key with `A` (an empty `B` included), `A.Min(B)`
has no register, and `A.Min(B).Total()` equals `0`, in exact and in `float64` arithmetic
alike. -/
theorem Min_Total_laws (A B : Histogram) :
    (A.Min A).Resolution = A.Resolution
      ∧ (∀ key, (A.Min A).regs.lookup key = A.regs.lookup key)
      ∧ List.Perm (A.Min A).regs.entries A.regs.entries
      ∧ (A.Min A).Total = A.Total
      ∧ (List.Disjoint A.regs.keys B.regs.keys
          → (A.Min B).regs.entries = [] ∧ (A.Min B).Total = 0 ∧ (A.Min B).TotalFloat = 0) := by
  refine ⟨Min_Resolution A A, Min_self_lookup A, ?_, Total_congr _ _ (Min_self_lookup A), ?_⟩
  · apply List.lookup_ext (A.Min A).regs.nodupKeys A.regs.nodupKeys
    intro x y
    have := Min_self_lookup A x
    simp only [AList.lookup] at this
    rw [this]
  · intro hdisj
    have he := Min_disjoint_entries A B hdisj
    refine ⟨he, ?_, ?_⟩
    · simp only [Histogram.Total, he, List.foldl_nil]
    · simp only [Histogram.TotalFloat, he, List.foldl_nil]

/-- Witness for C4: the test's `x` against the histogram with the one register
`"1.2e+02": 5`, a key that `x` does not have. -/
theorem Min_Total_laws_witness :
    List.Disjoint xTest.regs.keys coarseKey.regs.keys
      ∧ (xTest.Min coarseKey).regs.entries = []
      ∧ (xTest.Min coarseKey).Total = 0
      ∧ (xTest.Min coarseKey).TotalFloat = 0 :=
  have h : List.Disjoint xTest.regs.keys coarseKey.regs.keys := by
    have h1 : xTest.regs.keys = ["2.35e+04", "1.23e+02"] := by decide
    have h2 : coarseKey.regs.keys = ["1.2e+02"] := by decide
    rw [h1, h2]
    intro a ha hb
    rw [List.mem_singleton] at hb
    subst hb
    exact absurd ha (by decide)
  ⟨h, (Min_Total_laws xTest coarseKey).2.2.2.2 h⟩

/-- Counterexample to C4 as stated: the histogram `A` built by `New(2)`, `Insert(3, -1e16)`,
`Insert(2, 1e16)`, `Insert(1, 1)`, with the registers `"1.00e+00": 1`, `"2.00e+00": 1e16`
and `"3.00e+00": -1e16`. `A.Min(A)` holds the same three registers, and `Total` adds them
up in `float64` in the order in which `range` visits the map, which is not fixed.
Visiting `A` as `1, 1e16, -1e16` gives `(1 + 1e16) - 1e16 = 0`, since `1 + 1e16` rounds to
`1e16`; visiting `A.Min(A)` as `-1e16, 1e16, 1` gives `(-1e16 + 1e16) + 1 = 1`. -/
theorem Min_Total_laws_counterexample :
    (((New 2).Insert goLib (f64 "3") (-10000000000000000)).Insert goLib (f64 "2")
        10000000000000000).Insert goLib (f64 "1") 1 = cancelTriple
      ∧ (∀ key, (cancelTriple.Min cancelTriple).regs.lookup key = cancelTriple.regs.lookup key)
      ∧ cancelTriple.regs.entries.map (fun e => e.2)
          = [1, 10000000000000000, -10000000000000000]
      ∧ (cancelTriple.Min cancelTriple).regs.entries.map (fun e => e.2)
          = [-10000000000000000, 10000000000000000, 1]
      ∧ cancelTriple.TotalFloat = 0
      ∧ (cancelTriple.Min cancelTriple).TotalFloat = 1
      ∧ (cancelTriple.Min cancelTriple).TotalFloat ≠ cancelTriple.TotalFloat := by
  obtain ⟨t1, t2⟩ := TotalFloat_cancelTriple
  refine ⟨cancelTriple_reached, Min_self_lookup cancelTriple, ?_, ?_, t1, t2, ?_⟩
  · rw [cancelTriple_entries]; rfl
  · rw [cancelTriple_Min_entries]; rfl
  · rw [t1, t2]; norm_num

end MSFStore
